import Mathlib

/-!
Verification of the token resolution and mapping pipeline of the
farm-design-system theme package.

The definitions below are a shallow embedding of the TypeScript sources
`packages/theme/src/tokens.ts`, `packages/theme/scripts/sync-src-assets.ts`
and `packages/theme/scripts/build-assets.ts`.  JavaScript objects are
modelled as association lists (`List (String × String)` and
`List (String × Json)`); JS object-key insertion order is preserved by the
lists (the JS reordering of integer-like keys is abstracted away — the keys
in this domain are token names, not integers).  Property access `o[k]`
is `alookup`, assignment `o[k] = v` is `setKey` (overwrite in place or
append).  Exceptions become `Except Err`.
-/

namespace FarmTheme

/-- Theme mode: light or dark. -/
inductive Mode where
  | light
  | dark
deriving DecidableEq, Repr

/-- Structured error values for every `throw new Error(...)` in the pipeline.
The human-readable message text is abstracted to the data it interpolates. -/
inductive Err where
  /-- tokens.ts / scripts: 检测到循环引用 (cycle detected); carries `[...stack, ref]`. -/
  | cycle (chain : List String)
  /-- tokens.ts / scripts: 无法解析引用 (unresolvable reference). -/
  | unresolvedRef (ref : String)
  /-- resolveFinexUi: finex-ui.json 格式不正确 (input is not a record). -/
  | malformedInput
  /-- resolveFinexUi: 缺少 base/base. -/
  | missingBase
  /-- resolveFinexUi: no top-level key ending in "/Light" or "/Dark". -/
  | missingModeGroup
  /-- sync-src-assets main: Light/Dark token key 不一致; carries the two
  10-element previews (keys missing in dark, keys missing in light). -/
  | keySkew (missingInDark : List String) (missingInLight : List String)
  /-- pickFarmToken / pickFinexKey: no candidate found; carries the label and
  the full candidate list. -/
  | noCandidate (label : String) (candidates : List String)
  /-- assertThemeIntegrity: 非法 token 名称 (invalid token name). -/
  | invalidTokenName (token : String)
  /-- assertThemeIntegrity: farmTokenMap[token] points to a finex key missing
  from the given mode's map. -/
  | danglingFarmKey (mode : Mode) (token : String) (finexKey : String)
  /-- assertThemeIntegrity: antdTokenMap[antdToken] points to a missing Farm Token. -/
  | danglingAntdToken (antdToken : String) (farmToken : String)
  /-- assertThemeIntegrity: antdComponentsMap[c][ct] points to a missing Farm Token. -/
  | danglingComponentToken (component : String) (componentToken : String) (farmToken : String)
  /-- resolveModeTokens: finexUi[mode] lacks the key that farmTokenMap assigns
  to the token. -/
  | missingModeKey (mode : Mode) (finexKey : String) (token : String)
deriving DecidableEq, Repr

/-- JSON values as traversed by the pipeline.  `isRecord` distinguishes plain
objects from everything else; the pipeline additionally needs to see string
values (leaf `value` / `type` fields), so all non-object non-string JSON
values are collapsed into `other`. -/
inductive Json where
  | str (s : String)
  | other
  | obj (fields : List (String × Json))
deriving Repr

deriving instance DecidableEq for Except

/-- JS property read `o[k]` on a string map (first binding wins; JSON objects
have unique keys). -/
def alookup : List (String × String) → String → Option String
  | [], _ => none
  | (k, v) :: rest, key => if k == key then some v else alookup rest key

/-- JS property write `o[k] = v`: overwrite in place if the key exists,
otherwise append (insertion order preserved). -/
def setKey : List (String × String) → String → String → List (String × String)
  | [], k, v => [(k, v)]
  | (k', v') :: rest, k, v =>
      if k' == k then (k', v) :: rest else (k', v') :: setKey rest k v

/-- `Object.keys` of a string map. -/
def keysOf (m : List (String × String)) : List String := m.map Prod.fst

/-- JS property read on a JSON object (`raw['base/base']`, `raw[lightKey]`). -/
def jlookup : List (String × Json) → String → Option Json
  | [], _ => none
  | (k, v) :: rest, key => if k == key then some v else jlookup rest key

/-- `normalizeRef`, tokens.ts lines 53–56 (same in both scripts): match the
Token Studio reference syntax `/^\x7b(.+)\x7d$/` against `value.trim()` and
return the captured path.  The JS `.` does not match line terminators, hence
the explicit exclusion. -/
def isLineTerminator (c : Char) : Bool :=
  c == '\n' || c == '\r' || c == '\u2028' || c == '\u2029'

/-- JS `String.prototype.trim()` modelled on the character list (whitespace
stripped from both ends; the JS whitespace class is approximated by
`Char.isWhitespace`). -/
def jsTrim (s : String) : List Char :=
  ((s.data.dropWhile Char.isWhitespace).reverse.dropWhile Char.isWhitespace).reverse

/-- See `isLineTerminator`; `'\x7b'`/`'\x7d'` are the brace characters. -/
def normalizeRef (value : String) : Option String :=
  let cs := jsTrim value
  if 3 ≤ cs.length && cs.head? == some '\x7b' && cs.getLast? == some '\x7d'
      && ((cs.drop 1).dropLast.all fun c => !isLineTerminator c) then
    some (String.mk ((cs.drop 1).dropLast))
  else
    none

/-- Decreasing measure for `resolveTokenValue`: the number of distinct lookup
keys not yet on the visiting stack. -/
def resolveMeasure (lookup : List (String × String)) (stack : List String) : Nat :=
  (((lookup.map Prod.fst).dedup).filter fun k => decide (k ∉ stack)).length

/-- Fuel-indexed reference resolver; see `resolveTokenValue` below.  The
fuel-zero branch is unreachable for the fuel used there (see
`resolveTokenValue_unfold` and `resolveFuel_irrelevant`). -/
def resolveFuel : Nat → String → List (String × String) → List String → Except Err String
  | 0, _, _, stack => .error (.cycle stack)
  | fuel + 1, value, lookup, stack =>
      match normalizeRef value with
      | none => .ok value
      | some ref =>
          if ref ∈ stack then
            .error (.cycle (stack ++ [ref]))
          else
            match alookup lookup ref with
            | none => .error (.unresolvedRef ref)
            | some next => resolveFuel fuel next lookup (stack ++ [ref])

/-- `resolveTokenValue`, tokens.ts lines 88–99 (identical in both scripts):
expand a Token Studio reference chain, failing on cycles and on unresolvable
references.  The JS recursion is modelled with explicit fuel
`resolveMeasure lookup stack + 1`; `resolveTokenValue_unfold` proves that this
definition satisfies exactly the source's recurrence (so the fuel is never
exhausted). -/
def resolveTokenValue (value : String) (lookup : List (String × String))
    (stack : List String) : Except Err String :=
  resolveFuel (resolveMeasure lookup stack + 1) value lookup stack

/-- An acyclic-or-not reference chain in a flat lookup: `ResolvesTo lookup v
refs w` holds when starting from the raw value `v`, following the references
`refs` in order through `lookup` ends at the literal (non-reference) value
`w`. -/
inductive ResolvesTo (lookup : List (String × String)) :
    String → List String → String → Prop where
  | lit (v : String) : normalizeRef v = none → ResolvesTo lookup v [] v
  | step (v ref next : String) (refs : List String) (w : String) :
      normalizeRef v = some ref → alookup lookup ref = some next →
      ResolvesTo lookup next refs w → ResolvesTo lookup v (ref :: refs) w

/-- The candidate argument of `pickFinexKey`, sync script (second generation):
`FinexKeyCandidates = string | string[]`. -/
inductive FinexKeyCandidates where
  | single (key : String)
  | list (keys : List String)

/-- `normalizeCandidates`, sync script lines 860–862: a bare key becomes a
one-element list. -/
def normalizeCandidates : FinexKeyCandidates → List String
  | .single k => [k]
  | .list ks => ks

/-- The `for (const key of list) if (available.has(key)) return key;` loop
shared by `pickFinexKey` and `pickFarmToken`. -/
def pickLoop (available : List String) : List String → Option String
  | [] => none
  | k :: rest => if k ∈ available then some k else pickLoop available rest

/-- `pickFinexKey`, sync script lines 869–875: first candidate present in the
available set, `NoCandidateError` (with label and full candidate list)
otherwise. -/
def pickFinexKey (available : List String) (candidates : FinexKeyCandidates)
    (label : String) : Except Err String :=
  match pickLoop available (normalizeCandidates candidates) with
  | some k => .ok k
  | none => .error (.noCandidate label (normalizeCandidates candidates))

/-- `pickFarmToken`, sync-src-assets.ts lines 237–246: same selection over the
key set of `farmTokenMap` (the JS `token in farmTokenMap` test is modelled as
own-key membership; prototype-chain lookup is abstracted away). -/
def pickFarmToken (farmTokenMap : List (String × String))
    (candidates : List String) (label : String) : Except Err String :=
  match pickLoop (keysOf farmTokenMap) candidates with
  | some k => .ok k
  | none => .error (.noCandidate label candidates)

mutual

/-- `part.trim().replaceAll(/\s+/g, rep)` on the character list: every maximal
run of whitespace is replaced by the single character `rep` (scanning state:
not inside a whitespace run). -/
def squashWs (rep : Char) : List Char → List Char
  | [] => []
  | c :: rest =>
      if c.isWhitespace then rep :: skipWsRun rep rest else c :: squashWs rep rest

/-- Scanning state of `squashWs` inside a whitespace run (the replacement
character has already been emitted). -/
def skipWsRun (rep : Char) : List Char → List Char
  | [] => []
  | c :: rest =>
      if c.isWhitespace then skipWsRun rep rest else c :: squashWs rep rest
end

/-- `toFinexKey`, tokens.ts lines 109–118 (same in both scripts): empty path
gives the empty key; otherwise every segment except the last is trimmed with
whitespace runs collapsed to a dash, the last segment is trimmed with
whitespace runs collapsed to a space, and the results are joined with `-`. -/
def toFinexKey (pathParts : List String) : String :=
  match pathParts.getLast? with
  | none => ""
  | some leafPart =>
      let groups := pathParts.dropLast.map fun part => String.mk (squashWs '-' (jsTrim part))
      let leaf := String.mk (squashWs ' ' (jsTrim leafPart))
      String.intercalate "-" (groups ++ [leaf])

mutual

/-- Specification-side word splitter: the maximal whitespace-free runs of a
character list, in order (state: at a word boundary). -/
def wsWords : List Char → List (List Char)
  | [] => []
  | c :: rest =>
      if c.isWhitespace then wsWords rest
      else
        ((c :: (wsWordsIn rest).1)) :: (wsWordsIn rest).2

/-- Word-splitter state inside a word: returns the rest of the current word
and the following words. -/
def wsWordsIn : List Char → List Char × List (List Char)
  | [] => ([], [])
  | c :: rest =>
      if c.isWhitespace then ([], wsWords rest)
      else ((c :: (wsWordsIn rest).1), (wsWordsIn rest).2)
end

/-- Specification-side joining of words with a single separator character. -/
def joinWithRep (rep : Char) : List (List Char) → List Char
  | [] => []
  | [w] => w
  | w :: ws => w ++ rep :: joinWithRep rep ws

/-- Joining from inside a word (the current word's tail plus following words). -/
def joinInside (rep : Char) (p : List Char × List (List Char)) : List Char :=
  p.1 ++ (match p.2 with
    | [] => []
    | ws => rep :: joinWithRep rep ws)

/-- No whitespace at the end of the character list. -/
def NoTrailingWs (cs : List Char) : Prop :=
  ∀ c, cs.getLast? = some c → c.isWhitespace = false

/-- No whitespace at the start of the character list. -/
def NoLeadingWs (cs : List Char) : Prop :=
  ∀ c, cs.head? = some c → c.isWhitespace = false

/-- `isTokenLeaf`, tokens.ts lines 45–47: a node is a leaf iff it is a record
whose `value` property is a string; returns that string. -/
def leafValue : Json → Option String
  | .obj fields =>
      match jlookup fields "value" with
      | some (.str s) => some s
      | _ => none
  | _ => none

/-- The sync script's color filter (`value.type !== 'color'`): true iff the
node's `type` property is the string "color". -/
def leafTypeIsColor : Json → Bool
  | .obj fields =>
      match jlookup fields "type" with
      | some (.str t) => t == "color"
      | _ => false
  | _ => false

mutual

/-- `collectTokenValues`, tokens.ts lines 63–80 (same in both scripts):
flatten a token tree into a `a.b.c -> value` lookup; every string-valued leaf
is captured, regardless of its declared type. -/
def collectTokenValues : Json → List String → List (String × String) →
    List (String × String)
  | .obj fields, prefixParts, out => collectTokenValuesFields fields prefixParts out
  | _, _, out => out

/-- The `for (const [key, value] of Object.entries(tree))` loop of
`collectTokenValues`. -/
def collectTokenValuesFields : List (String × Json) → List String →
    List (String × String) → List (String × String)
  | [], _, out => out
  | (key, v) :: rest, prefixParts, out =>
      let nextParts := prefixParts ++ [key]
      match leafValue v with
      | some s =>
          collectTokenValuesFields rest prefixParts
            (setKey out (String.intercalate "." nextParts) s)
      | none =>
          match v with
          | .obj _ =>
              collectTokenValuesFields rest prefixParts
                (collectTokenValues v nextParts out)
          | _ => collectTokenValuesFields rest prefixParts out
end

mutual

/-- `collectThemeTokens`, tokens.ts lines 125–144: flatten a theme group into
`finexKey -> resolvedValue`; NOTE: unlike the sync script's version, this one
has no color-type filter — every string-valued leaf is collected. -/
def collectThemeTokensTok : Json → List (String × String) → List String →
    List (String × String) → Except Err (List (String × String))
  | .obj fields, baseLookup, prefixParts, out =>
      collectThemeTokensTokFields fields baseLookup prefixParts out
  | _, _, _, out => .ok out

/-- Entry loop of tokens.ts `collectThemeTokens`. -/
def collectThemeTokensTokFields : List (String × Json) → List (String × String) →
    List String → List (String × String) → Except Err (List (String × String))
  | [], _, _, out => .ok out
  | (key, v) :: rest, baseLookup, prefixParts, out =>
      let nextParts := prefixParts ++ [key]
      match leafValue v with
      | some s =>
          match resolveTokenValue s baseLookup [] with
          | .error e => .error e
          | .ok resolved =>
              collectThemeTokensTokFields rest baseLookup prefixParts
                (setKey out (toFinexKey nextParts) resolved)
      | none =>
          match v with
          | .obj _ =>
              match collectThemeTokensTok v baseLookup nextParts out with
              | .error e => .error e
              | .ok out2 => collectThemeTokensTokFields rest baseLookup prefixParts out2
          | _ => collectThemeTokensTokFields rest baseLookup prefixParts out
end

mutual

/-- `collectThemeTokens`, sync-src-assets.ts lines 147–168 (same in the
second-generation build script): like the tokens.ts version but a leaf is
collected only when its `type` equals "color"; other leaves are silently
skipped. -/
def collectThemeTokensSync : Json → List (String × String) → List String →
    List (String × String) → Except Err (List (String × String))
  | .obj fields, baseLookup, prefixParts, out =>
      collectThemeTokensSyncFields fields baseLookup prefixParts out
  | _, _, _, out => .ok out

/-- Entry loop of the sync script's `collectThemeTokens`. -/
def collectThemeTokensSyncFields : List (String × Json) → List (String × String) →
    List String → List (String × String) → Except Err (List (String × String))
  | [], _, _, out => .ok out
  | (key, v) :: rest, baseLookup, prefixParts, out =>
      let nextParts := prefixParts ++ [key]
      match leafValue v with
      | some s =>
          if leafTypeIsColor v then
            match resolveTokenValue s baseLookup [] with
            | .error e => .error e
            | .ok resolved =>
                collectThemeTokensSyncFields rest baseLookup prefixParts
                  (setKey out (toFinexKey nextParts) resolved)
          else
            collectThemeTokensSyncFields rest baseLookup prefixParts out
      | none =>
          match v with
          | .obj _ =>
              match collectThemeTokensSync v baseLookup nextParts out with
              | .error e => .error e
              | .ok out2 => collectThemeTokensSyncFields rest baseLookup prefixParts out2
          | _ => collectThemeTokensSyncFields rest baseLookup prefixParts out
end

/-- `isFinexUiResolved`, tokens.ts lines 150–153: the input already has
object-valued `light` and `dark` properties. -/
def isFinexUiResolved : Json → Bool
  | .obj fields =>
      (match jlookup fields "light" with
        | some (.obj _) => true
        | _ => false) &&
      (match jlookup fields "dark" with
        | some (.obj _) => true
        | _ => false)
  | _ => false

/-- `/\/Light$/.test(k)` etc.: suffix test on the character list (the regexes
only anchor a literal suffix). -/
def strEndsWith (s suffix : String) : Bool :=
  suffix.data.isSuffixOf s.data

/-- Encode a resolved flat map back into JSON (the slow path of
`resolveFinexUi` returns the freshly built `{ light, dark }` record). -/
def encodeStrMap (m : List (String × String)) : Json :=
  .obj (m.map fun p => (p.1, .str p.2))

/-- `resolveFinexUi`, tokens.ts lines 160–191: fast path returns the input
as-is when it is already resolved; the slow path requires a `base/base`
record and top-level keys ending in `/Light` and `/Dark`, builds the
unconditional base lookup and flattens both mode groups with the
(unfiltered) tokens.ts `collectThemeTokens`.  `raw[lightKey]` is total here
because `lightKey` is found among the keys; the `.getD .other` default is
unreachable. -/
def resolveFinexUi (raw : Json) : Except Err Json :=
  if isFinexUiResolved raw then .ok raw
  else
    match raw with
    | .obj fields =>
        match jlookup fields "base/base" with
        | some (.obj baseFields) =>
            match (fields.map Prod.fst).find? (fun k => strEndsWith k "/Light"),
                (fields.map Prod.fst).find? (fun k => strEndsWith k "/Dark") with
            | some lightKey, some darkKey =>
                match collectThemeTokensTok ((jlookup fields lightKey).getD .other)
                    (collectTokenValues (.obj baseFields) [] []) [] [] with
                | .error e => .error e
                | .ok light =>
                    match collectThemeTokensTok ((jlookup fields darkKey).getD .other)
                        (collectTokenValues (.obj baseFields) [] []) [] [] with
                    | .error e => .error e
                    | .ok dark =>
                        .ok (.obj [("light", encodeStrMap light),
                          ("dark", encodeStrMap dark)])
            | _, _ => .error .missingModeGroup
        | some _ => .error .missingBase
        | none => .error .missingBase
    | _ => .error .malformedInput

/-- `resolveFinexUi`, sync-src-assets.ts lines 181–206: identical scaffolding
but the mode groups are flattened with the color-filtered collector. -/
def resolveFinexUiSync (raw : Json) : Except Err Json :=
  if isFinexUiResolved raw then .ok raw
  else
    match raw with
    | .obj fields =>
        match jlookup fields "base/base" with
        | some (.obj baseFields) =>
            match (fields.map Prod.fst).find? (fun k => strEndsWith k "/Light"),
                (fields.map Prod.fst).find? (fun k => strEndsWith k "/Dark") with
            | some lightKey, some darkKey =>
                match collectThemeTokensSync ((jlookup fields lightKey).getD .other)
                    (collectTokenValues (.obj baseFields) [] []) [] [] with
                | .error e => .error e
                | .ok light =>
                    match collectThemeTokensSync ((jlookup fields darkKey).getD .other)
                        (collectTokenValues (.obj baseFields) [] []) [] [] with
                    | .error e => .error e
                    | .ok dark =>
                        .ok (.obj [("light", encodeStrMap light),
                          ("dark", encodeStrMap dark)])
            | _, _ => .error .missingModeGroup
        | some _ => .error .missingBase
        | none => .error .missingBase
    | _ => .error .malformedInput

/-- `Object.keys(finexUi.light)` on the JSON produced by normalization. -/
def jsonModeKeys (u : Json) (mode : String) : List String :=
  match u with
  | .obj fields =>
      match jlookup fields mode with
      | some (.obj fs) => fs.map Prod.fst
      | _ => []
  | _ => []

/-- The Light/Dark key-set consistency check of sync-src-assets.ts `main`
(lines 612–625): compute the keys missing from each side; on any skew, fail
with an error carrying a 10-element preview of each missing-key list. -/
def checkKeySkew (lightKeys darkKeys : List String) : Except Err Unit :=
  if (lightKeys.filter fun k => decide (k ∉ darkKeys)).length > 0 ||
      (darkKeys.filter fun k => decide (k ∉ lightKeys)).length > 0 then
    .error (.keySkew ((lightKeys.filter fun k => decide (k ∉ darkKeys)).take 10)
      ((darkKeys.filter fun k => decide (k ∉ lightKeys)).take 10))
  else
    .ok ()

/-- The normalization part of the sync script's `main`: resolve the raw
export, then enforce the Light/Dark key-set invariant. -/
def syncNormalize (raw : Json) : Except Err Json :=
  match resolveFinexUiSync raw with
  | .error e => .error e
  | .ok u =>
      match checkKeySkew (jsonModeKeys u "light") (jsonModeKeys u "dark") with
      | .error e => .error e
      | .ok _ => .ok u

/-- A string-valued leaf sits at `path` (relative to the given node) with raw
value `s`: the specification-side description of what the unconditional
flattener must capture. -/
inductive LeafAt : Json → List String → String → Prop where
  | here (fields : List (String × Json)) (k : String) (v : Json) (s : String) :
      (k, v) ∈ fields → leafValue v = some s → LeafAt (.obj fields) [k] s
  | nest (fields : List (String × Json)) (k : String) (v : Json)
      (path : List String) (s : String) :
      (k, v) ∈ fields → leafValue v = none → LeafAt v path s →
      LeafAt (.obj fields) (k :: path) s

mutual

/-- Specification-side pruning: remove every leaf whose declared `type` is not
"color" (containers are pruned recursively; non-record values are kept, they
are ignored by the collectors anyway). -/
def pruneNonColor : Json → Json
  | .obj fields => .obj (pruneFields fields)
  | j => j

/-- Entry-wise pruning of an object's fields; see `pruneNonColor`. -/
def pruneFields : List (String × Json) → List (String × Json)
  | [] => []
  | (k, v) :: rest =>
      match leafValue v with
      | some _ =>
          if leafTypeIsColor v then (k, v) :: pruneFields rest else pruneFields rest
      | none =>
          match v with
          | .obj _ => (k, pruneNonColor v) :: pruneFields rest
          | _ => (k, v) :: pruneFields rest
end

/-- Well-formed JSON: object keys are duplicate-free at every level (true of
everything produced by `JSON.parse`). -/
inductive WfJson : Json → Prop where
  | str (s : String) : WfJson (.str s)
  | other : WfJson .other
  | obj (fields : List (String × Json)) :
      (fields.map Prod.fst).Nodup → (∀ p ∈ fields, WfJson p.2) →
      WfJson (.obj fields)

/-- A raw Token Studio export whose `X/Light` group contains a leaf of
declared type "number" alongside a color leaf (and likewise in `X/Dark`). -/
def rawMixedTypesExport : Json := .obj [
  ("base/base", .obj [("Grey", .obj [("18",
    .obj [("value", .str "#ffffff"), ("type", .str "color")])])]),
  ("X/Light", .obj [
    ("Bg", .obj [("value", .str "\x7bGrey.18\x7d"), ("type", .str "color")]),
    ("Gap", .obj [("value", .str "4px"), ("type", .str "number")])]),
  ("X/Dark", .obj [
    ("Bg", .obj [("value", .str "#000000"), ("type", .str "color")]),
    ("Gap", .obj [("value", .str "4px"), ("type", .str "number")])])]

/-- A raw Token Studio export whose `X/Light` group defines the key `Bg`
while `X/Dark` defines no key at all. -/
def rawSkewedExport : Json := .obj [
  ("base/base", .obj []),
  ("X/Light", .obj [("Bg",
    .obj [("value", .str "#ffffff"), ("type", .str "color")])]),
  ("X/Dark", .obj [])]

/-- Character class `[a-z0-9-]` of the token-name pattern (JS regex classes
are ASCII here). -/
def isTokenChar (c : Char) : Bool :=
  c.isLower || c.isDigit || c == '-'

/-- Split a character list at every `.` (the unique decomposition matched by
`^seg(\.seg)*$`). -/
def splitOnDot : List Char → List (List Char)
  | [] => [[]]
  | c :: rest =>
      match splitOnDot rest with
      | [] => [[c]]
      | seg :: segs =>
          if c == '.' then [] :: seg :: segs else (c :: seg) :: segs

/-- `isValidTokenName`, tokens.ts lines 234–236 (and the build script): the
string matches `^[a-z0-9-]+(\.[a-z0-9-]+)*$`, i.e. splits on `.` into
non-empty all-token-character segments. -/
def isValidTokenName (s : String) : Bool :=
  (splitOnDot s.data).all fun seg => !seg.isEmpty && seg.all isTokenChar

/-- First loop of `assertThemeIntegrity` (tokens.ts 260–278): every Farm Token
name is valid and its finex key exists in both mode maps (`hasOwnProperty` is
own-key membership). -/
def checkFarmTokens (light dark : List (String × String)) :
    List (String × String) → Except Err Unit
  | [] => .ok ()
  | (token, finexKey) :: rest =>
      if ¬ isValidTokenName token then .error (.invalidTokenName token)
      else if finexKey ∉ keysOf light then
        .error (.danglingFarmKey .light token finexKey)
      else if finexKey ∉ keysOf dark then
        .error (.danglingFarmKey .dark token finexKey)
      else checkFarmTokens light dark rest

/-- Second loop of `assertThemeIntegrity` (tokens.ts 280–286): every
antd-token-map value names an existing Farm Token. -/
def checkAntdTokens (farmTokenMap : List (String × String)) :
    List (String × String) → Except Err Unit
  | [] => .ok ()
  | (antdToken, token) :: rest =>
      if token ∉ keysOf farmTokenMap then .error (.danglingAntdToken antdToken token)
      else checkAntdTokens farmTokenMap rest

/-- Inner loop of the components check (tokens.ts 293–299). -/
def checkComponentMap (farmTokenMap : List (String × String))
    (componentName : String) : List (String × String) → Except Err Unit
  | [] => .ok ()
  | (componentToken, token) :: rest =>
      if token ∉ keysOf farmTokenMap then
        .error (.danglingComponentToken componentName componentToken token)
      else checkComponentMap farmTokenMap componentName rest

/-- Outer loop of the components check (tokens.ts 288–300); the
`isRecord(tokenMap)` guard is vacuous in this typed embedding. -/
def checkComponents (farmTokenMap : List (String × String)) :
    List (String × List (String × String)) → Except Err Unit
  | [] => .ok ()
  | (componentName, tokenMap) :: rest =>
      match checkComponentMap farmTokenMap componentName tokenMap with
      | .error e => .error e
      | .ok _ => checkComponents farmTokenMap rest

/-- `assertThemeIntegrity`, tokens.ts lines 251–303, over explicit inputs. -/
def assertThemeIntegrity (farmTokenMap antdTokenMap : List (String × String))
    (light dark : List (String × String))
    (antdComponentsMap : List (String × List (String × String))) : Except Err Unit :=
  match checkFarmTokens light dark farmTokenMap with
  | .error e => .error e
  | .ok _ =>
      match checkAntdTokens farmTokenMap antdTokenMap with
      | .error e => .error e
      | .ok _ => checkComponents farmTokenMap antdComponentsMap

/-- `token.replaceAll('.', '-')` (tokens.ts 312–315). -/
def dashedName (t : String) : String :=
  String.mk (t.data.map fun c => if c == '.' then '-' else c)

/-- `cssVarName`, tokens.ts lines 312–315: `--farm-` prefix with `.` turned
into `-`. -/
def cssVarName (t : String) : String :=
  "--farm-" ++ dashedName t

/-- The `for (const token of farmTokens)` loop of `resolveModeTokens`
(tokens.ts 354–363): look the finex key up in the mode map, fail naming the
missing key and the token, otherwise store the override value when present
and the mode value otherwise. -/
def resolveModeTokensGo (mode : Mode) (modeTokens overrides : List (String × String)) :
    List (String × String) → List (String × String) →
    Except Err (List (String × String))
  | [], acc => .ok acc
  | (token, finexKey) :: rest, acc =>
      match alookup modeTokens finexKey with
      | none => .error (.missingModeKey mode finexKey token)
      | some v =>
          resolveModeTokensGo mode modeTokens overrides rest
            (setKey acc token (match alookup overrides token with
              | some o => o
              | none => v))

/-- `resolveModeTokens`, tokens.ts lines 343–366, over explicit inputs
(`modeTokens` is `finexUi[mode]`, the iteration follows the farm-token-map
entries). -/
def resolveModeTokens (mode : Mode) (modeTokens overrides : List (String × String))
    (farmTokenMap : List (String × String)) : Except Err (List (String × String)) :=
  resolveModeTokensGo mode modeTokens overrides farmTokenMap []

/-- The token-resolution part of `createTheme` (tokens.ts 639–642): both
modes are resolved with the caller's per-mode overrides, light first. -/
def createThemeTokens (finexLight finexDark ovLight ovDark : List (String × String))
    (farmTokenMap : List (String × String)) :
    Except Err (List (String × String) × List (String × String)) :=
  match resolveModeTokens .light finexLight ovLight farmTokenMap with
  | .error e => .error e
  | .ok l =>
      match resolveModeTokens .dark finexDark ovDark farmTokenMap with
      | .error e => .error e
      | .ok d => .ok (l, d)

/-- The `for (const token of farmTokens)` loop of `resolveModeCssVars`
(tokens.ts 396–405); an absent token would store JS `undefined`, modelled by
the (unreachable in the pipeline) `""` default. -/
def resolveModeCssVarsGo (modeTokens : List (String × String)) :
    List String → List (String × String) → List (String × String)
  | [], acc => acc
  | t :: rest, acc =>
      resolveModeCssVarsGo modeTokens rest
        (setKey acc (cssVarName t) ((alookup modeTokens t).getD ""))

/-- `resolveModeCssVars`, tokens.ts lines 396–405, iterating the given
farm-token list. -/
def resolveModeCssVars (modeTokens : List (String × String))
    (farmTokens : List String) : List (String × String) :=
  resolveModeCssVarsGo modeTokens farmTokens []

/-- The `  name: value;` lines of one CSS block (tokens.ts 433–436). -/
def cssBlockLines (vars : List (String × String)) : List String :=
  vars.map fun p => "  " ++ p.1 ++ ": " ++ p.2 ++ ";"

/-- `formatCssVarBlock`, tokens.ts lines 433–436 (same in the build script). -/
def formatCssVarBlock (selector : String) (vars : List (String × String)) : String :=
  selector ++ " \x7b\n" ++ String.intercalate "\n" (cssBlockLines vars) ++ "\n\x7d"

/-- `createTokensCss`, tokens.ts lines 445–460: the auto-generation header,
one block per mode and a trailing blank, joined by blank lines.  The default
selectors of the source are passed explicitly by the caller. -/
def createTokensCss (lightSelector darkSelector : String)
    (varsLight varsDark : List (String × String)) : String :=
  String.intercalate "\n\n" ["/* Auto-generated by @farm-design-system/theme. */",
    formatCssVarBlock lightSelector varsLight,
    formatCssVarBlock darkSelector varsDark, ""]

/-- The lines array built by `buildTokensScss` (build-assets.ts 315–324):
header, blank, one `$farm-name: var(--farm-name);` alias per mapped token,
trailing blank. -/
def scssLines (farmTokenMap : List (String × String)) : List String :=
  ["/* Auto-generated by @farm-design-system/theme. */", ""] ++
    farmTokenMap.map (fun p =>
      "$farm-" ++ dashedName p.1 ++ ": var(" ++ cssVarName p.1 ++ ");") ++ [""]

/-- `buildTokensScss`, build-assets.ts lines 315–324. -/
def buildTokensScss (farmTokenMap : List (String × String)) : String :=
  String.intercalate "\n" (scssLines farmTokenMap)

/-- The lines array built by `buildTokensLess` (build-assets.ts 331–340). -/
def lessLines (farmTokenMap : List (String × String)) : List String :=
  ["/* Auto-generated by @farm-design-system/theme. */", ""] ++
    farmTokenMap.map (fun p =>
      "@farm-" ++ dashedName p.1 ++ ": var(" ++ cssVarName p.1 ++ ");") ++ [""]

/-- `buildTokensLess`, build-assets.ts lines 331–340. -/
def buildTokensLess (farmTokenMap : List (String × String)) : String :=
  String.intercalate "\n" (lessLines farmTokenMap)

/-- Specification-side parser of one `name: value;` declaration line (leading
indentation ignored; the name is everything before the first colon). -/
def parseDecl (line : String) : Option (String × String) :=
  match (line.data.dropWhile fun c => c == ' ').dropWhile fun c => !(c == ':') with
  | ':' :: ' ' :: v =>
      if v.getLast? == some ';' then
        some (String.mk ((line.data.dropWhile fun c => c == ' ').takeWhile
          fun c => !(c == ':')), String.mk v.dropLast)
      else none
  | _ => none

theorem length_filter_le_of_imp {l : List String} {p q : String → Bool}
    (h : ∀ a, p a = true → q a = true) :
    (l.filter p).length ≤ (l.filter q).length := by
  induction l with
  | nil => simp
  | cons a t ih =>
      by_cases hp : p a = true
      · simp [List.filter_cons, hp, h a hp]; omega
      · have hp' : p a = false := by simpa using hp
        by_cases hq : q a = true
        · simp [List.filter_cons, hp', hq]; omega
        · have hq' : q a = false := by simpa using hq
          simp [List.filter_cons, hp', hq']; omega

theorem length_filter_lt_of_witness {l : List String} {p q : String → Bool}
    (h : ∀ a, p a = true → q a = true) {x : String} (hx : x ∈ l)
    (hqx : q x = true) (hpx : p x = false) :
    (l.filter p).length < (l.filter q).length := by
  induction l with
  | nil => cases hx
  | cons a t ih =>
      rcases List.mem_cons.mp hx with rfl | hxt
      · simp only [List.filter_cons, hpx, hqx]
        calc (t.filter p).length ≤ (t.filter q).length := length_filter_le_of_imp h
          _ < (t.filter q).length + 1 := Nat.lt_succ_self _
          _ = (x :: t.filter q).length := rfl
      · by_cases hp : p a = true
        · simp [List.filter_cons, hp, h a hp]
          exact ih hxt
        · have hp' : p a = false := by simpa using hp
          by_cases hq : q a = true
          · simp only [List.filter_cons, hp', hq, List.length_cons]
            exact Nat.lt_succ_of_lt (ih hxt)
          · have hq' : q a = false := by simpa using hq
            simp only [List.filter_cons, hp', hq']
            exact ih hxt

theorem mem_keys_of_alookup_eq_some {m : List (String × String)} {k v : String}
    (h : alookup m k = some v) : k ∈ m.map Prod.fst := by
  induction m with
  | nil => simp [alookup] at h
  | cons p rest ih =>
      obtain ⟨k', v'⟩ := p
      simp only [alookup] at h
      by_cases hk : (k' == k) = true
      · simp only [List.map_cons, List.mem_cons]
        exact Or.inl (beq_iff_eq.mp hk).symm
      · simp only [hk, if_false] at h
        simp only [List.map_cons, List.mem_cons]
        exact Or.inr (ih h)

theorem resolveMeasure_lt {lookup : List (String × String)} {stack : List String}
    {ref next : String} (hmem : ¬ ref ∈ stack)
    (hlk : alookup lookup ref = some next) :
    resolveMeasure lookup (stack ++ [ref]) < resolveMeasure lookup stack := by
  unfold resolveMeasure
  have himp : ∀ a, (fun k => decide (k ∉ stack ++ [ref])) a = true →
      (fun k => decide (k ∉ stack)) a = true := by
    intro a ha
    simp only [decide_eq_true_eq] at ha ⊢
    intro hmem'
    exact ha (List.mem_append_left _ hmem')
  exact @length_filter_lt_of_witness ((lookup.map Prod.fst).dedup)
    (fun k => decide (k ∉ stack ++ [ref])) (fun k => decide (k ∉ stack)) himp ref
    (List.mem_dedup.mpr (mem_keys_of_alookup_eq_some hlk))
    (by simpa using hmem) (by simp)

theorem resolveFuel_irrelevant :
    ∀ (fuel₁ fuel₂ : Nat) (value : String) (lookup : List (String × String))
      (stack : List String),
      resolveMeasure lookup stack < fuel₁ → resolveMeasure lookup stack < fuel₂ →
      resolveFuel fuel₁ value lookup stack = resolveFuel fuel₂ value lookup stack := by
  intro fuel₁
  induction fuel₁ with
  | zero => intro fuel₂ value lookup stack h₁ h₂; omega
  | succ n ih =>
      intro fuel₂ value lookup stack h₁ h₂
      match fuel₂, h₂ with
      | m + 1, _ =>
        simp only [resolveFuel]
        match normalizeRef value with
        | none => rfl
        | some ref =>
            by_cases hmem : ref ∈ stack
            · simp [hmem]
            · simp only [hmem, if_false]
              match hlk : alookup lookup ref with
              | none => rfl
              | some next =>
                  have hlt := resolveMeasure_lt hmem hlk
                  exact ih m next lookup (stack ++ [ref]) (by omega) (by omega)

/-- `resolveTokenValue` satisfies the source recurrence of tokens.ts 88–99:
non-references are returned unchanged; a reference already on the visiting
stack raises the cycle error; a reference absent from the lookup raises the
unresolved-reference error; otherwise resolution recurses on the looked-up
value with the reference appended to the stack. -/
theorem resolveTokenValue_unfold (value : String) (lookup : List (String × String))
    (stack : List String) :
    resolveTokenValue value lookup stack =
      match normalizeRef value with
      | none => .ok value
      | some ref =>
          if ref ∈ stack then
            .error (.cycle (stack ++ [ref]))
          else
            match alookup lookup ref with
            | none => .error (.unresolvedRef ref)
            | some next => resolveTokenValue next lookup (stack ++ [ref]) := by
  conv_lhs => rw [resolveTokenValue]
  simp only [resolveFuel]
  match normalizeRef value with
  | none => rfl
  | some ref =>
      by_cases hmem : ref ∈ stack
      · simp [hmem]
      · simp only [hmem, if_false]
        match hlk : alookup lookup ref with
        | none => rfl
        | some next =>
            have hlt := resolveMeasure_lt hmem hlk
            exact resolveFuel_irrelevant _ _ next lookup (stack ++ [ref])
              (by omega) (by omega)

theorem resolve_of_resolvesTo {lookup : List (String × String)}
    {value : String} {refs : List String} {lit : String}
    (hchain : ResolvesTo lookup value refs lit) :
    ∀ visiting : List String, refs.Nodup → (∀ r ∈ refs, r ∉ visiting) →
      resolveTokenValue value lookup visiting = .ok lit := by
  induction hchain with
  | lit v hv =>
      intro visiting _ _
      rw [resolveTokenValue_unfold, hv]
  | step v ref next refs w href hlk _ ih =>
      intro visiting hnd hdisj
      have hrefmem : ref ∉ visiting := hdisj ref (List.mem_cons_self _ _)
      rw [resolveTokenValue_unfold, href]
      simp only [hrefmem, if_false, hlk]
      apply ih
      · exact (List.nodup_cons.mp hnd).2
      · intro r hr
        simp only [List.mem_append, List.mem_singleton]
        rintro (hrv | rfl)
        · exact hdisj r (List.mem_cons_of_mem _ hr) hrv
        · exact (List.nodup_cons.mp hnd).1 hr

/-- C1: for every lookup table, input string and visiting sequence: a
non-reference input is returned unchanged; a reference already in `visiting`
raises the cycle error; a reference absent from the lookup raises the
unresolved-reference error; otherwise resolution recurses on the looked-up
value with the path appended to `visiting`; and every acyclic reference chain
terminating in a literal resolves to that literal. -/
theorem claim_C1_reference_resolver
    (lookup : List (String × String)) (value : String) (visiting : List String) :
    (normalizeRef value = none → resolveTokenValue value lookup visiting = .ok value) ∧
    (∀ ref, normalizeRef value = some ref → ref ∈ visiting →
        resolveTokenValue value lookup visiting = .error (.cycle (visiting ++ [ref]))) ∧
    (∀ ref, normalizeRef value = some ref → ref ∉ visiting →
        alookup lookup ref = none →
        resolveTokenValue value lookup visiting = .error (.unresolvedRef ref)) ∧
    (∀ ref next, normalizeRef value = some ref → ref ∉ visiting →
        alookup lookup ref = some next →
        resolveTokenValue value lookup visiting =
          resolveTokenValue next lookup (visiting ++ [ref])) ∧
    (∀ refs lit, ResolvesTo lookup value refs lit → refs.Nodup →
        (∀ r ∈ refs, r ∉ visiting) →
        resolveTokenValue value lookup visiting = .ok lit) := by
  refine ⟨?_, ?_, ?_, ?_, ?_⟩
  · intro h
    rw [resolveTokenValue_unfold, h]
  · intro ref href hmem
    rw [resolveTokenValue_unfold, href]
    simp [hmem]
  · intro ref href hmem hlk
    rw [resolveTokenValue_unfold, href]
    simp [hmem, hlk]
  · intro ref next href hmem hlk
    rw [resolveTokenValue_unfold, href]
    simp [hmem, hlk]
  · intro refs lit hchain hnd hdisj
    exact resolve_of_resolvesTo hchain visiting hnd hdisj

/-- Witness for C1 at a concrete input: the two-step chain
`"\x7bA\x7d" → "\x7bB\x7d" → "#123456"` resolves to the literal. -/
theorem claim_C1_reference_resolver_witness :
    resolveTokenValue "\x7bA\x7d" [("A", "\x7bB\x7d"), ("B", "#123456")] [] =
      .ok "#123456" := by
  have h :=
    (claim_C1_reference_resolver [("A", "\x7bB\x7d"), ("B", "#123456")] "\x7bA\x7d" []).2.2.2.2
  apply h ["A", "B"] "#123456"
  · refine ResolvesTo.step _ "A" "\x7bB\x7d" _ _ (by decide) (by decide) ?_
    refine ResolvesTo.step _ "B" "#123456" _ _ (by decide) (by decide) ?_
    exact ResolvesTo.lit _ (by decide)
  · decide
  · decide

theorem pickLoop_eq_none_iff {available l : List String} :
    pickLoop available l = none ↔ ∀ k ∈ l, k ∉ available := by
  induction l with
  | nil => simp [pickLoop]
  | cons a t ih =>
      by_cases ha : a ∈ available
      · simp [pickLoop, ha]
      · simp [pickLoop, ha, ih]

theorem pickLoop_eq_some_iff {available l : List String} {k : String} :
    pickLoop available l = some k ↔
      ∃ pre post, l = pre ++ k :: post ∧ k ∈ available ∧
        ∀ x ∈ pre, x ∉ available := by
  induction l with
  | nil =>
      simp only [pickLoop]
      constructor
      · intro h; cases h
      · rintro ⟨pre, post, h, -, -⟩
        exact absurd h (by simp)
  | cons a t ih =>
      by_cases ha : a ∈ available
      · simp only [pickLoop, ha, if_true, Option.some_inj]
        constructor
        · rintro rfl
          exact ⟨[], t, rfl, ha, by simp⟩
        · rintro ⟨pre, post, hl, hk, hpre⟩
          match pre, hl with
          | [], hl => exact (List.cons.injEq .. ▸ hl).1
          | p :: pre', hl =>
              have : p = a := (List.cons.injEq .. ▸ hl).1.symm
              exact absurd ha (this ▸ hpre p (by simp))
      · simp only [pickLoop, ha, if_false]
        rw [ih]
        constructor
        · rintro ⟨pre, post, rfl, hk, hpre⟩
          refine ⟨a :: pre, post, rfl, hk, ?_⟩
          intro x hx
          rcases List.mem_cons.mp hx with rfl | hx
          · exact ha
          · exact hpre x hx
        · rintro ⟨pre, post, hl, hk, hpre⟩
          match pre, hl with
          | [], hl =>
              have : a = k := (List.cons.injEq .. ▸ hl).1
              exact absurd (this ▸ hk) ha
          | p :: pre', hl =>
              have ht : t = pre' ++ k :: post := (List.cons.injEq .. ▸ hl).2
              exact ⟨pre', post, ht, hk, fun x hx => hpre x (List.mem_cons_of_mem _ hx)⟩

/-- C4: for every available set, candidate argument and label, `pick` returns
the first candidate in order that is a member of the available set, raises
`NoCandidateError` naming the label and the full candidate list iff no
candidate is a member, and treats a bare key as a one-element list; the
same characterization holds for `pickFarmToken` over the mapping-table key
set. -/
theorem claim_C4_pick_first_candidate (available : List String)
    (candidates : FinexKeyCandidates) (label : String)
    (farmTokenMap : List (String × String)) (tokenCandidates : List String) :
    (∀ k, pickFinexKey available candidates label = .ok k ↔
        ∃ pre post, normalizeCandidates candidates = pre ++ k :: post ∧
          k ∈ available ∧ ∀ x ∈ pre, x ∉ available) ∧
    (pickFinexKey available candidates label =
        .error (.noCandidate label (normalizeCandidates candidates)) ↔
      ∀ k ∈ normalizeCandidates candidates, k ∉ available) ∧
    (∀ k, pickFinexKey available (.single k) label =
        pickFinexKey available (.list [k]) label) ∧
    (∀ k, pickFarmToken farmTokenMap tokenCandidates label = .ok k ↔
        ∃ pre post, tokenCandidates = pre ++ k :: post ∧
          k ∈ keysOf farmTokenMap ∧ ∀ x ∈ pre, x ∉ keysOf farmTokenMap) ∧
    (pickFarmToken farmTokenMap tokenCandidates label =
        .error (.noCandidate label tokenCandidates) ↔
      ∀ k ∈ tokenCandidates, k ∉ keysOf farmTokenMap) := by
  have hmain : ∀ (av cl : List String) (k : String),
      (match pickLoop av cl with
        | some k2 => Except.ok k2
        | none => Except.error (Err.noCandidate label cl)) = .ok k ↔
        ∃ pre post, cl = pre ++ k :: post ∧ k ∈ av ∧ ∀ x ∈ pre, x ∉ av := by
    intro av cl k
    cases h : pickLoop av cl with
    | some k2 =>
        constructor
        · intro hk
          cases hk
          exact pickLoop_eq_some_iff.mp h
        · intro hr
          have h2 := pickLoop_eq_some_iff.mpr hr
          rw [h] at h2
          cases h2
          rfl
    | none =>
        constructor
        · intro hk; cases hk
        · intro hr
          have h2 := pickLoop_eq_some_iff.mpr hr
          rw [h] at h2
          cases h2
  have hmainerr : ∀ (av cl : List String),
      (match pickLoop av cl with
        | some k2 => Except.ok k2
        | none => Except.error (Err.noCandidate label cl)) =
          .error (.noCandidate label cl) ↔ ∀ k ∈ cl, k ∉ av := by
    intro av cl
    cases h : pickLoop av cl with
    | some k2 =>
        constructor
        · intro hk; cases hk
        · intro hr
          have h2 := pickLoop_eq_none_iff.mpr hr
          rw [h] at h2
          cases h2
    | none =>
        constructor
        · intro _
          exact pickLoop_eq_none_iff.mp h
        · intro _
          rfl
  refine ⟨?_, ?_, ?_, ?_, ?_⟩
  · intro k
    exact hmain available (normalizeCandidates candidates) k
  · exact hmainerr available (normalizeCandidates candidates)
  · intro k; rfl
  · intro k
    exact hmain (keysOf farmTokenMap) tokenCandidates k
  · exact hmainerr (keysOf farmTokenMap) tokenCandidates

/-- Witness for C4: the spec scenario where only `old-key` of the candidates
`[new-key, old-key]` exists resolves to `old-key`. -/
theorem claim_C4_pick_first_candidate_witness :
    pickFinexKey ["old-key"] (.list ["new-key", "old-key"]) "colorPrimary" =
      .ok "old-key" := by
  have h := (claim_C4_pick_first_candidate ["old-key"]
      (.list ["new-key", "old-key"]) "colorPrimary" [] []).1 "old-key"
  exact h.mpr ⟨["new-key"], [], rfl, by decide, by decide⟩

theorem getLast?_cons_of_ne_nil {c : Char} {rest : List Char} (h : rest ≠ []) :
    (c :: rest).getLast? = rest.getLast? := by
  match rest, h with
  | d :: t, _ => exact List.getLast?_cons_cons ..

theorem noTrailingWs_of_cons {c : Char} {rest : List Char}
    (h : NoTrailingWs (c :: rest)) : NoTrailingWs rest := by
  intro z hz
  have hne : rest ≠ [] := by rintro rfl; simp at hz
  exact h z ((getLast?_cons_of_ne_nil hne) ▸ hz)

theorem joinWithRep_cons_cons (rep : Char) (w : List Char) (ws : List (List Char))
    (h : ws ≠ []) :
    joinWithRep rep (w :: ws) = w ++ rep :: joinWithRep rep ws := by
  match ws, h with
  | x :: ws', _ => rfl

theorem squash_words_main (rep : Char) :
    ∀ n (cs : List Char), cs.length ≤ n →
      (NoTrailingWs cs → squashWs rep cs = joinInside rep (wsWordsIn cs)) ∧
      (NoTrailingWs cs → skipWsRun rep cs = joinWithRep rep (wsWords cs)) ∧
      ((∃ c ∈ cs, c.isWhitespace = false) → wsWords cs ≠ []) := by
  intro n
  induction n with
  | zero =>
      intro cs hlen
      have : cs = [] := List.length_eq_zero.mp (Nat.le_zero.mp hlen)
      subst this
      refine ⟨fun _ => rfl, fun _ => rfl, ?_⟩
      rintro ⟨c, hc, -⟩
      cases hc
  | succ n ih =>
      intro cs hlen
      match cs with
      | [] =>
          refine ⟨fun _ => rfl, fun _ => rfl, ?_⟩
          rintro ⟨c, hc, -⟩
          cases hc
      | c :: rest =>
          have hrest := ih rest (by simpa using Nat.lt_succ_iff.mp (Nat.lt_of_lt_of_le (by simp) hlen))
          by_cases hc : c.isWhitespace = true
          · -- c is whitespace
            refine ⟨?_, ?_, ?_⟩
            · intro htrail
              -- squashWs = rep :: skipWsRun rest; words enter boundary state
              have hne : rest ≠ [] := by
                rintro rfl
                exact absurd (htrail c rfl) (by simp [hc])
              have htrest : NoTrailingWs rest := noTrailingWs_of_cons htrail
              obtain ⟨z, hz⟩ : ∃ z, rest.getLast? = some z := by
                cases hzz : rest.getLast? with
                | none => exact absurd (List.getLast?_eq_none_iff.mp hzz) hne
                | some z => exact ⟨z, rfl⟩
              have hznws : z.isWhitespace = false := htrest z hz
              have hzmem : z ∈ rest := List.mem_of_getLast?_eq_some hz
              have hwne : wsWords rest ≠ [] := hrest.2.2 ⟨z, hzmem, hznws⟩
              simp only [squashWs, hc, if_true, wsWordsIn, joinInside]
              rw [hrest.2.1 htrest]
              match hw : wsWords rest, hwne with
              | x :: ws', _ => rfl
            · intro htrail
              have htrest : NoTrailingWs rest := noTrailingWs_of_cons htrail
              simp only [skipWsRun, hc, if_true, wsWords]
              exact hrest.2.1 htrest
            · rintro ⟨z, hz, hznws⟩
              rcases List.mem_cons.mp hz with rfl | hzrest
              · rw [hc] at hznws; cases hznws
              · simp only [wsWords, hc, if_true]
                exact hrest.2.2 ⟨z, hzrest, hznws⟩
          · -- c is not whitespace
            have hc' : c.isWhitespace = false := by simpa using hc
            have htrans : NoTrailingWs (c :: rest) → NoTrailingWs rest :=
              noTrailingWs_of_cons
            refine ⟨?_, ?_, ?_⟩
            · intro htrail
              simp only [squashWs, hc', if_neg, Bool.false_eq_true, not_false_iff,
                wsWordsIn, joinInside]
              rw [hrest.1 (htrans htrail)]
              rfl
            · intro htrail
              simp only [skipWsRun, hc', Bool.false_eq_true, if_false, wsWords]
              rw [hrest.1 (htrans htrail)]
              match hp : (wsWordsIn rest).2 with
              | [] => simp [joinInside, joinWithRep, hp]
              | x :: ws' =>
                  rw [joinWithRep_cons_cons _ _ _ (by simp [hp])]
                  simp [joinInside, hp]
            · intro _
              simp only [wsWords, hc', Bool.false_eq_true, if_false]
              exact List.cons_ne_nil _ _

theorem squash_eq_joinWords {rep : Char} {cs : List Char}
    (hhead : NoLeadingWs cs) (hlast : NoTrailingWs cs) :
    squashWs rep cs = joinWithRep rep (wsWords cs) := by
  match cs with
  | [] => rfl
  | c :: rest =>
      have hc : c.isWhitespace = false := hhead c rfl
      have hmain := squash_words_main rep (c :: rest).length (c :: rest) le_rfl
      have hskip : squashWs rep (c :: rest) = skipWsRun rep (c :: rest) := by
        simp [squashWs, skipWsRun, hc]
      rw [hskip]
      exact hmain.2.1 hlast

theorem head?_dropWhile_not {p : Char → Bool} {l : List Char} {c : Char}
    (h : (l.dropWhile p).head? = some c) : p c = false := by
  induction l with
  | nil => simp [List.dropWhile] at h
  | cons a t ih =>
      by_cases ha : p a = true
      · rw [List.dropWhile_cons_of_pos ha] at h
        exact ih h
      · have ha' : p a = false := by simpa using ha
        rw [List.dropWhile_cons_of_neg (by simp [ha'])] at h
        cases h
        exact ha'

theorem getLast?_dropWhile_of_ne_nil {p : Char → Bool} {l : List Char}
    (h : l.dropWhile p ≠ []) : (l.dropWhile p).getLast? = l.getLast? := by
  induction l with
  | nil => simp [List.dropWhile] at h
  | cons a t ih =>
      by_cases ha : p a = true
      · rw [List.dropWhile_cons_of_pos ha] at h ⊢
        rw [ih h]
        have ht : t ≠ [] := by
          rintro rfl
          simp [List.dropWhile] at h
        exact (getLast?_cons_of_ne_nil ht).symm
      · have ha' : p a = false := by simpa using ha
        rw [List.dropWhile_cons_of_neg (by simp [ha'])]

theorem jsTrim_noLeadingWs (s : String) : NoLeadingWs (jsTrim s) := by
  intro c hc
  unfold jsTrim at hc
  rw [List.head?_reverse] at hc
  by_cases hne : (s.data.dropWhile Char.isWhitespace).reverse.dropWhile Char.isWhitespace = []
  · rw [hne] at hc
    cases hc
  · rw [getLast?_dropWhile_of_ne_nil hne, List.getLast?_reverse] at hc
    exact head?_dropWhile_not hc

theorem jsTrim_noTrailingWs (s : String) : NoTrailingWs (jsTrim s) := by
  intro c hc
  unfold jsTrim at hc
  rw [List.getLast?_reverse] at hc
  exact head?_dropWhile_not hc

/-- C9: on every non-empty path-segment list, the flattener's key joins the
segments with `-`, where every segment except the last is trimmed and has each
whitespace run collapsed to a single dash and the last segment is trimmed and
has each whitespace run collapsed to a single space (expressed via the
independent word-splitting specification `wsWords`/`joinWithRep`); and the
reference resolver is total and deterministic with recursion depth bounded by
the number of distinct lookup keys: computing with any fuel that exceeds
`resolveMeasure` — which is at most the number of distinct keys — yields the
canonical result. -/
theorem claim_C9_key_construction_and_termination :
    (∀ (initParts : List String) (leafPart : String),
        toFinexKey (initParts ++ [leafPart]) =
          String.intercalate "-"
            (initParts.map
                (fun part => String.mk (joinWithRep '-' (wsWords (jsTrim part)))) ++
              [String.mk (joinWithRep ' ' (wsWords (jsTrim leafPart)))])) ∧
    (∀ (value : String) (lookup : List (String × String)) (stack : List String)
        (fuel : Nat), resolveMeasure lookup stack < fuel →
        resolveFuel fuel value lookup stack = resolveTokenValue value lookup stack) ∧
    (∀ (lookup : List (String × String)) (stack : List String),
        resolveMeasure lookup stack ≤ ((lookup.map Prod.fst).dedup).length) := by
  refine ⟨?_, ?_, ?_⟩
  · intro initParts leafPart
    simp only [toFinexKey, List.getLast?_concat, List.dropLast_concat]
    congr 1
    congr 1
    · apply List.map_congr_left
      intro part _
      congr 1
      exact squash_eq_joinWords (jsTrim_noLeadingWs part) (jsTrim_noTrailingWs part)
    · congr 2
      exact squash_eq_joinWords (jsTrim_noLeadingWs leafPart) (jsTrim_noTrailingWs leafPart)
  · intro value lookup stack fuel hfuel
    rw [resolveTokenValue]
    exact resolveFuel_irrelevant fuel _ value lookup stack hfuel (Nat.lt_succ_self _)
  · intro lookup stack
    exact List.length_filter_le _ _

/-- Witness for C9 at concrete inputs: a two-segment path with internal
whitespace runs, and a resolver run with explicit fuel 3 on a one-step chain. -/
theorem claim_C9_key_construction_and_termination_witness :
    toFinexKey ["Secondary White  button", "Dark  purple"] =
        "Secondary-White-button-Dark purple" ∧
      resolveFuel 3 "\x7bA\x7d" [("A", "#fff")] [] =
        resolveTokenValue "\x7bA\x7d" [("A", "#fff")] [] := by
  constructor
  · have h := claim_C9_key_construction_and_termination.1 ["Secondary White  button"]
      "Dark  purple"
    rw [show (["Secondary White  button"] ++ ["Dark  purple"]) =
      ["Secondary White  button", "Dark  purple"] from rfl] at h
    rw [h]
    decide
  · exact claim_C9_key_construction_and_termination.2.1 "\x7bA\x7d"
      [("A", "#fff")] [] 3 (by decide)

theorem resolveFinexUi_fast_path {raw : Json} (h : isFinexUiResolved raw = true) :
    resolveFinexUi raw = .ok raw := by
  unfold resolveFinexUi
  rw [if_pos h]

theorem isResolved_of_resolveFinexUi_ok {raw t : Json}
    (h : resolveFinexUi raw = .ok t) : isFinexUiResolved t = true := by
  unfold resolveFinexUi at h
  by_cases hres : isFinexUiResolved raw = true
  · rw [if_pos hres] at h
    cases h
    exact hres
  · rw [if_neg hres] at h
    split at h
    · split at h
      · split at h
        · split at h
          · cases h
          · split at h
            · cases h
            · cases h
              simp [isFinexUiResolved, jlookup, encodeStrMap]
        · cases h
      · cases h
      · cases h
    · cases h

/-- C6: normalization is idempotent — an input that already has object-valued
`light` and `dark` properties is returned as-is, and normalizing any
normalization result changes nothing. -/
theorem claim_C6_normalization_idempotent :
    (∀ raw : Json, isFinexUiResolved raw = true → resolveFinexUi raw = .ok raw) ∧
    (∀ raw t : Json, resolveFinexUi raw = .ok t → resolveFinexUi t = .ok t) := by
  constructor
  · intro raw h
    exact resolveFinexUi_fast_path h
  · intro raw t h
    exact resolveFinexUi_fast_path (isResolved_of_resolveFinexUi_ok h)

/-- Witness for C6: a concrete already-resolved theme is returned unchanged. -/
theorem claim_C6_normalization_idempotent_witness :
    resolveFinexUi (.obj [("light", .obj [("Bg", .str "#ffffff")]),
        ("dark", .obj [("Bg", .str "#000000")])]) =
      .ok (.obj [("light", .obj [("Bg", .str "#ffffff")]),
        ("dark", .obj [("Bg", .str "#000000")])]) :=
  claim_C6_normalization_idempotent.1 _ (by decide)

theorem sizeOf_rest_lt (key : String) (v : Json) (rest : List (String × Json)) :
    sizeOf rest < sizeOf ((key, v) :: rest) := by
  simp

theorem sizeOf_objFields_lt (key : String) (vfields rest : List (String × Json)) :
    sizeOf vfields < sizeOf ((key, Json.obj vfields) :: rest) := by
  simp
  omega

theorem mem_keysOf_setKey_self {m : List (String × String)} {k v : String} :
    k ∈ keysOf (setKey m k v) := by
  induction m with
  | nil => simp [setKey, keysOf]
  | cons p rest ih =>
      obtain ⟨k', v'⟩ := p
      by_cases hk : (k' == k) = true
      · simp [setKey, hk, keysOf, beq_iff_eq.mp hk]
      · have hk' : (k' == k) = false := by simpa using hk
        simp only [setKey, hk', Bool.false_eq_true, if_false, keysOf,
          List.map_cons, List.mem_cons]
        exact Or.inr ih

theorem mem_keysOf_setKey_of_mem {m : List (String × String)} {j k v : String}
    (h : j ∈ keysOf m) : j ∈ keysOf (setKey m k v) := by
  induction m with
  | nil => simp [keysOf] at h
  | cons p rest ih =>
      obtain ⟨k', v'⟩ := p
      simp only [keysOf, List.map_cons, List.mem_cons] at h
      by_cases hk : (k' == k) = true
      · simp only [setKey, hk, if_true, keysOf, List.map_cons, List.mem_cons]
        exact h
      · have hk' : (k' == k) = false := by simpa using hk
        simp only [setKey, hk', Bool.false_eq_true, if_false, keysOf,
          List.map_cons, List.mem_cons]
        rcases h with h | h
        · exact Or.inl h
        · exact Or.inr (ih h)

theorem collectFields_keys_mono (n : Nat) :
    ∀ (fields : List (String × Json)) (pre : List String)
      (out : List (String × String)) (k : String), sizeOf fields ≤ n →
      k ∈ keysOf out → k ∈ keysOf (collectTokenValuesFields fields pre out) := by
  induction n using Nat.strong_induction_on with
  | _ n ih =>
      intro fields pre out k hle hk
      match fields with
      | [] => simpa [collectTokenValuesFields] using hk
      | (key, v) :: rest =>
          have hszrest := sizeOf_rest_lt key v rest
          cases hlv : leafValue v with
          | some s =>
              simp only [collectTokenValuesFields, hlv]
              exact ih (sizeOf rest) (by omega) rest pre _ k le_rfl
                (mem_keysOf_setKey_of_mem hk)
          | none =>
              cases v with
              | obj vfields =>
                  have hszv := sizeOf_objFields_lt key vfields rest
                  simp only [collectTokenValuesFields, hlv]
                  have hk2 : k ∈ keysOf
                      (collectTokenValuesFields vfields (pre ++ [key]) out) :=
                    ih (sizeOf vfields) (by omega) vfields _ out k le_rfl hk
                  exact ih (sizeOf rest) (by omega) rest pre _ k le_rfl hk2
              | str s =>
                  simp only [collectTokenValuesFields, hlv]
                  exact ih (sizeOf rest) (by omega) rest pre _ k le_rfl hk
              | other =>
                  simp only [collectTokenValuesFields, hlv]
                  exact ih (sizeOf rest) (by omega) rest pre _ k le_rfl hk

theorem leafAt_destruct {w : Json} {path2 : List String} {s : String}
    (h : LeafAt w path2 s) :
    ∃ wfields, w = .obj wfields ∧ ∃ k2 v2, (k2, v2) ∈ wfields ∧
      ((leafValue v2 = some s ∧ path2 = [k2]) ∨
        (leafValue v2 = none ∧ ∃ path3, path2 = k2 :: path3 ∧ LeafAt v2 path3 s)) := by
  cases h with
  | here fields k v s hm hv => exact ⟨fields, rfl, k, v, hm, Or.inl ⟨hv, rfl⟩⟩
  | nest fields k v path s hm hv hsub =>
      exact ⟨fields, rfl, k, v, hm, Or.inr ⟨hv, path, rfl, hsub⟩⟩

theorem collectFields_captures (n : Nat) :
    ∀ (fields : List (String × Json)) (pre : List String)
      (out : List (String × String)) (k : String) (v : Json)
      (path : List String) (s : String), sizeOf fields ≤ n → (k, v) ∈ fields →
      ((leafValue v = some s ∧ path = [k]) ∨
        (leafValue v = none ∧ ∃ path2, path = k :: path2 ∧ LeafAt v path2 s)) →
      String.intercalate "." (pre ++ path) ∈
        keysOf (collectTokenValuesFields fields pre out) := by
  induction n using Nat.strong_induction_on with
  | _ n ih =>
      intro fields pre out k v path s hle hmem hcase
      match fields with
      | [] => cases hmem
      | (key, w) :: rest =>
          have hszrest := sizeOf_rest_lt key w rest
          rcases List.mem_cons.mp hmem with heq | hmemrest
          · -- the target entry is the head
            cases heq
            rcases hcase with ⟨hlv, rfl⟩ | ⟨hlv, path2, rfl, hsub⟩
            · simp only [collectTokenValuesFields, hlv]
              exact collectFields_keys_mono (sizeOf rest) rest pre _ _ le_rfl
                mem_keysOf_setKey_self
            · obtain ⟨wfields, rfl, k2, v2, hm2, hd2⟩ := leafAt_destruct hsub
              have hszw := sizeOf_objFields_lt k wfields rest
              simp only [collectTokenValuesFields, hlv]
              have hkey : String.intercalate "." ((pre ++ [k]) ++ path2) ∈
                  keysOf (collectTokenValuesFields wfields (pre ++ [k]) out) :=
                ih (sizeOf wfields) (by omega) wfields (pre ++ [k]) out k2 v2
                  path2 s le_rfl hm2 hd2
              rw [List.append_assoc] at hkey
              simp only [List.singleton_append] at hkey
              exact collectFields_keys_mono (sizeOf rest) rest pre _ _ le_rfl hkey
          · -- the target entry is further along; step over the head
            cases hlw : leafValue w with
            | some s2 =>
                simp only [collectTokenValuesFields, hlw]
                exact ih (sizeOf rest) (by omega) rest pre _ k v path s le_rfl
                  hmemrest hcase
            | none =>
                cases w with
                | obj wfields =>
                    simp only [collectTokenValuesFields, hlw]
                    exact ih (sizeOf rest) (by omega) rest pre _ k v path s le_rfl
                      hmemrest hcase
                | str s2 =>
                    simp only [collectTokenValuesFields, hlw]
                    exact ih (sizeOf rest) (by omega) rest pre _ k v path s le_rfl
                      hmemrest hcase
                | other =>
                    simp only [collectTokenValuesFields, hlw]
                    exact ih (sizeOf rest) (by omega) rest pre _ k v path s le_rfl
                      hmemrest hcase

theorem collect_captures_tree {t : Json} {path : List String} {s : String}
    (h : LeafAt t path s) (pre : List String) (out : List (String × String)) :
    String.intercalate "." (pre ++ path) ∈ keysOf (collectTokenValues t pre out) := by
  obtain ⟨fields, rfl, k2, v2, hm, hd⟩ := leafAt_destruct h
  exact collectFields_captures (sizeOf fields) fields pre out k2 v2 path s
    le_rfl hm hd

theorem jlookup_none_of_not_mem {fs : List (String × Json)} {key : String}
    (h : key ∉ fs.map Prod.fst) : jlookup fs key = none := by
  induction fs with
  | nil => rfl
  | cons p rest ih =>
      obtain ⟨k, w⟩ := p
      simp only [List.map_cons, List.mem_cons, not_or] at h
      have hk : (k == key) = false := by simpa using fun hkk => h.1 hkk.symm
      simp only [jlookup, hk, Bool.false_eq_true, if_false]
      exact ih h.2

theorem mem_keys_of_mem_keys_pruneFields {fs : List (String × Json)} {key : String}
    (h : key ∈ (pruneFields fs).map Prod.fst) : key ∈ fs.map Prod.fst := by
  induction fs with
  | nil => simp [pruneFields] at h
  | cons p rest ih =>
      obtain ⟨k, w⟩ := p
      simp only [List.map_cons, List.mem_cons]
      cases hlw : leafValue w with
      | some s =>
          by_cases hcol : leafTypeIsColor w = true
          · simp only [pruneFields, hlw, hcol, if_true, List.map_cons,
              List.mem_cons] at h
            rcases h with h | h
            · exact Or.inl h
            · exact Or.inr (ih h)
          · have hcol' : leafTypeIsColor w = false := by simpa using hcol
            simp only [pruneFields, hlw, hcol', Bool.false_eq_true, if_false] at h
            exact Or.inr (ih h)
      | none =>
          cases w with
          | obj wfields =>
              simp only [pruneFields, hlw, List.map_cons, List.mem_cons] at h
              rcases h with h | h
              · exact Or.inl h
              · exact Or.inr (ih h)
          | str s2 =>
              simp only [pruneFields, hlw, List.map_cons, List.mem_cons] at h
              rcases h with h | h
              · exact Or.inl h
              · exact Or.inr (ih h)
          | other =>
              simp only [pruneFields, hlw, List.map_cons, List.mem_cons] at h
              rcases h with h | h
              · exact Or.inl h
              · exact Or.inr (ih h)

theorem leafValue_some_obj {w : Json} {s : String} (h : leafValue w = some s) :
    ∃ fs, w = .obj fs := by
  cases w with
  | obj fs => exact ⟨fs, rfl⟩
  | str s2 => simp [leafValue] at h
  | other => simp [leafValue] at h

theorem jlookup_pruneFields_no_str {fs : List (String × Json)}
    (hnd : (fs.map Prod.fst).Nodup)
    (h : ∀ s, jlookup fs "value" ≠ some (.str s)) :
    ∀ s, jlookup (pruneFields fs) "value" ≠ some (.str s) := by
  induction fs with
  | nil => intro s; simp [pruneFields, jlookup]
  | cons p rest ih =>
      obtain ⟨k, w⟩ := p
      simp only [List.map_cons, List.nodup_cons] at hnd
      by_cases hk : (k == "value") = true
      · have hkv : k = "value" := beq_iff_eq.mp hk
        have hw : ∀ s, w ≠ .str s := by
          intro s hws
          exact h s (by simp [jlookup, hk, hws])
        cases hlw : leafValue w with
        | some s2 =>
            obtain ⟨wfs, rfl⟩ := leafValue_some_obj hlw
            by_cases hcol : leafTypeIsColor (Json.obj wfs) = true
            · intro s
              simp [pruneFields, hlw, hcol, jlookup, hk]
            · have hcol' : leafTypeIsColor (Json.obj wfs) = false := by simpa using hcol
              intro s
              simp only [pruneFields, hlw, hcol', Bool.false_eq_true, if_false]
              have hnv : "value" ∉ (pruneFields rest).map Prod.fst := by
                intro hmem
                exact hnd.1 (hkv ▸ mem_keys_of_mem_keys_pruneFields hmem)
              rw [jlookup_none_of_not_mem hnv]
              simp
        | none =>
            cases w with
            | obj wfs =>
                intro s
                simp [pruneFields, hlw, jlookup, hk, pruneNonColor]
            | str s2 => exact absurd rfl (hw s2)
            | other =>
                intro s
                simp [pruneFields, hlw, jlookup, hk]
      · have hk' : (k == "value") = false := by simpa using hk
        have hrest : ∀ s, jlookup rest "value" ≠ some (.str s) := by
          intro s hs
          exact h s (by simp [jlookup, hk', Bool.false_eq_true, hs])
        have ihr := ih hnd.2 hrest
        cases hlw : leafValue w with
        | some s2 =>
            by_cases hcol : leafTypeIsColor w = true
            · intro s
              simp only [pruneFields, hlw, hcol, if_true, jlookup, hk',
                Bool.false_eq_true, if_false]
              exact ihr s
            · have hcol' : leafTypeIsColor w = false := by simpa using hcol
              intro s
              simp only [pruneFields, hlw, hcol', Bool.false_eq_true, if_false]
              exact ihr s
        | none =>
            cases w with
            | obj wfs =>
                intro s
                simp only [pruneFields, hlw, jlookup, hk', Bool.false_eq_true,
                  if_false]
                exact ihr s
            | str s2 =>
                intro s
                simp only [pruneFields, hlw, jlookup, hk', Bool.false_eq_true,
                  if_false]
                exact ihr s
            | other =>
                intro s
                simp only [pruneFields, hlw, jlookup, hk', Bool.false_eq_true,
                  if_false]
                exact ihr s

theorem leafValue_obj_none_iff {fs : List (String × Json)} :
    leafValue (.obj fs) = none ↔ ∀ s, jlookup fs "value" ≠ some (.str s) := by
  simp only [leafValue]
  cases h : jlookup fs "value" with
  | none => simp
  | some j =>
      cases j with
      | str s2 => simp
      | other => simp
      | obj ofs => simp

theorem leafValue_pruneFields_none {fs : List (String × Json)}
    (hnd : (fs.map Prod.fst).Nodup) (h : leafValue (.obj fs) = none) :
    leafValue (.obj (pruneFields fs)) = none := by
  rw [leafValue_obj_none_iff] at h ⊢
  exact jlookup_pruneFields_no_str hnd h

theorem pruneFields_collect_eq (n : Nat) :
    ∀ (fields : List (String × Json)) (lookup : List (String × String))
      (pre : List String) (out : List (String × String)), sizeOf fields ≤ n →
      (∀ p ∈ fields, WfJson p.2) →
      collectThemeTokensSyncFields fields lookup pre out =
        collectThemeTokensTokFields (pruneFields fields) lookup pre out := by
  induction n using Nat.strong_induction_on with
  | _ n ih =>
      intro fields lookup pre out hle hwf
      match fields with
      | [] => rfl
      | (key, v) :: rest =>
          have hszrest := sizeOf_rest_lt key v rest
          have hwfv : WfJson v := hwf (key, v) (List.mem_cons_self _ _)
          have hwfrest : ∀ p ∈ rest, WfJson p.2 := fun p hp =>
            hwf p (List.mem_cons_of_mem _ hp)
          cases hlv : leafValue v with
          | some s =>
              by_cases hcol : leafTypeIsColor v = true
              · simp only [collectThemeTokensSyncFields, pruneFields, hlv, hcol,
                  if_true, collectThemeTokensTokFields]
                cases hres : resolveTokenValue s lookup [] with
                | error e => rfl
                | ok resolved =>
                    exact ih (sizeOf rest) (by omega) rest lookup pre _ le_rfl hwfrest
              · have hcol' : leafTypeIsColor v = false := by simpa using hcol
                simp only [collectThemeTokensSyncFields, pruneFields, hlv, hcol',
                  Bool.false_eq_true, if_false]
                exact ih (sizeOf rest) (by omega) rest lookup pre out le_rfl hwfrest
          | none =>
              cases v with
              | obj vfields =>
                  have hszv := sizeOf_objFields_lt key vfields rest
                  have hndv : (vfields.map Prod.fst).Nodup := by
                    cases hwfv with
                    | obj _ hnd _ => exact hnd
                  have hwfvf : ∀ p ∈ vfields, WfJson p.2 := by
                    cases hwfv with
                    | obj _ _ hall => exact hall
                  have hlv2 : leafValue (.obj (pruneFields vfields)) = none :=
                    leafValue_pruneFields_none hndv hlv
                  simp only [collectThemeTokensSyncFields, pruneFields, hlv,
                    collectThemeTokensTokFields, pruneNonColor, hlv2]
                  have hinner :
                      collectThemeTokensSync (.obj vfields) lookup (pre ++ [key]) out =
                        collectThemeTokensTok (.obj (pruneFields vfields)) lookup
                          (pre ++ [key]) out := by
                    show collectThemeTokensSyncFields vfields lookup (pre ++ [key]) out =
                      collectThemeTokensTokFields (pruneFields vfields) lookup
                        (pre ++ [key]) out
                    exact ih (sizeOf vfields) (by omega) vfields lookup _ out le_rfl hwfvf
                  rw [hinner]
                  cases hrec : collectThemeTokensTok (Json.obj (pruneFields vfields))
                      lookup (pre ++ [key]) out with
                  | error e => rfl
                  | ok out2 =>
                      exact ih (sizeOf rest) (by omega) rest lookup pre out2 le_rfl hwfrest
              | str s2 =>
                  simp only [collectThemeTokensSyncFields, pruneFields, hlv,
                    collectThemeTokensTokFields]
                  exact ih (sizeOf rest) (by omega) rest lookup pre out le_rfl hwfrest
              | other =>
                  simp only [collectThemeTokensSyncFields, pruneFields, hlv,
                    collectThemeTokensTokFields]
                  exact ih (sizeOf rest) (by omega) rest lookup pre out le_rfl hwfrest

/-- C3 (amended): the base lookup is flattened unconditionally — every
string-valued leaf's dotted key is captured; and the sync script's Light/Dark
flattening applies the color-type filter — it coincides with the unconditional
tokens.ts flattening of the tree with all non-color leaves pruned (so a leaf
of any other declared type is silently skipped there).  The runtime tokens.ts
slow path, by contrast, flattens Light/Dark unconditionally (see the
counterexample). -/
theorem claim_C3_flattening_filter
    (t : Json) (path : List String) (s : String) (pre : List String)
    (out : List (String × String)) (lookup : List (String × String)) :
    (LeafAt t path s →
      String.intercalate "." (pre ++ path) ∈ keysOf (collectTokenValues t pre out)) ∧
    (WfJson t →
      collectThemeTokensSync t lookup pre out =
        collectThemeTokensTok (pruneNonColor t) lookup pre out) := by
  constructor
  · intro h
    exact collect_captures_tree h pre out
  · intro hwf
    cases t with
    | obj fields =>
        cases hwf with
        | obj _ _ hall =>
            exact pruneFields_collect_eq (sizeOf fields) fields lookup pre out
              le_rfl hall
    | str s2 => rfl
    | other => rfl

/-- Counterexample for C3 as stated: the runtime tokens.ts slow path does NOT
filter Light/Dark by type — the leaf `Gap` of declared type "number" enters
the light map, whereas the sync script's normalization skips it. -/
theorem claim_C3_counterexample :
    (resolveFinexUi rawMixedTypesExport).map (fun u => jsonModeKeys u "light") =
        .ok ["Bg", "Gap"] ∧
      (resolveFinexUiSync rawMixedTypesExport).map (fun u => jsonModeKeys u "light") =
        .ok ["Bg"] := by
  constructor
  · decide
  · decide

/-- Witness for C3 at concrete inputs: a leaf at
`Grey.18` is captured by the unconditional flattener, and the filtered
collector on a well-formed group with one number-typed leaf equals the
unconditional collector on the pruned group. -/
theorem claim_C3_flattening_filter_witness :
    "Grey.18" ∈ keysOf (collectTokenValues
        (.obj [("Grey", .obj [("18", .obj [("value", .str "#ffffff")])])]) [] []) ∧
      collectThemeTokensSync
          (.obj [("Bg", .obj [("value", .str "#fff"), ("type", .str "number")])])
          [] [] [] =
        collectThemeTokensTok (pruneNonColor
          (.obj [("Bg", .obj [("value", .str "#fff"), ("type", .str "number")])]))
          [] [] [] := by
  constructor
  · have h := (claim_C3_flattening_filter
        (.obj [("Grey", .obj [("18", .obj [("value", .str "#ffffff")])])])
        ["Grey", "18"] "#ffffff" [] [] []).1
    have hleaf : LeafAt
        (.obj [("Grey", .obj [("18", .obj [("value", .str "#ffffff")])])])
        ["Grey", "18"] "#ffffff" := by
      refine LeafAt.nest _ "Grey" (.obj [("18", .obj [("value", .str "#ffffff")])])
        ["18"] "#ffffff" (by simp) (by decide) ?_
      exact LeafAt.here _ "18" (.obj [("value", .str "#ffffff")]) "#ffffff"
        (by simp) (by decide)
    simpa using h hleaf
  · have h := (claim_C3_flattening_filter
        (.obj [("Bg", .obj [("value", .str "#fff"), ("type", .str "number")])])
        [] "" [] [] []).2
    apply h
    refine WfJson.obj _ (by decide) ?_
    intro p hp
    rcases List.mem_singleton.mp hp with rfl
    refine WfJson.obj _ (by decide) ?_
    intro q hq
    rcases List.mem_cons.mp hq with rfl | hq
    · exact WfJson.str _
    · rcases List.mem_singleton.mp hq with rfl
      exact WfJson.str _

theorem checkKeySkew_ok_subsets {lk dk : List String} {v : Unit}
    (h : checkKeySkew lk dk = .ok v) :
    (∀ k ∈ lk, k ∈ dk) ∧ (∀ k ∈ dk, k ∈ lk) := by
  unfold checkKeySkew at h
  split at h
  · cases h
  · next hcond =>
      simp only [Bool.or_eq_true, decide_eq_true_eq, not_or, Nat.pos_iff_ne_zero,
        ne_eq, not_not, List.length_eq_zero, List.filter_eq_nil_iff,
        decide_eq_true_eq] at hcond
      constructor
      · intro k hk
        exact hcond.1 k hk
      · intro k hk
        exact hcond.2 k hk

/-- C2 (amended): the sync script's normalization pipeline enforces the
Light/Dark key-set invariant — it never returns a theme with skewed key sets,
and on any skew it fails with the key-skew error whose two reported lists hold
at most 10 example offending keys per side, every reported key really is
skewed, at least one side is reported, and every offending key is reported
whenever its side has at most 10 offenders.  (The runtime tokens.ts
`resolveFinexUi` performs no such check; see the counterexample.) -/
theorem claim_C2_key_skew_failure (raw u : Json) (lightKeys darkKeys : List String) :
    (syncNormalize raw = .ok u →
      (∀ k, k ∈ jsonModeKeys u "light" ↔ k ∈ jsonModeKeys u "dark")) ∧
    ((∃ k, (k ∈ lightKeys ∧ k ∉ darkKeys) ∨ (k ∈ darkKeys ∧ k ∉ lightKeys)) →
      ∃ md ml, checkKeySkew lightKeys darkKeys = .error (.keySkew md ml) ∧
        md.length ≤ 10 ∧ ml.length ≤ 10 ∧
        (∀ k ∈ md, k ∈ lightKeys ∧ k ∉ darkKeys) ∧
        (∀ k ∈ ml, k ∈ darkKeys ∧ k ∉ lightKeys) ∧
        (md ≠ [] ∨ ml ≠ []) ∧
        ((lightKeys.filter fun k2 => decide (k2 ∉ darkKeys)).length ≤ 10 →
          ∀ k ∈ lightKeys, k ∉ darkKeys → k ∈ md) ∧
        ((darkKeys.filter fun k2 => decide (k2 ∉ lightKeys)).length ≤ 10 →
          ∀ k ∈ darkKeys, k ∉ lightKeys → k ∈ ml)) ∧
    (resolveFinexUiSync raw = .ok u →
      (∃ k, (k ∈ jsonModeKeys u "light" ∧ k ∉ jsonModeKeys u "dark") ∨
        (k ∈ jsonModeKeys u "dark" ∧ k ∉ jsonModeKeys u "light")) →
      ∃ md ml, syncNormalize raw = .error (.keySkew md ml)) := by
  have hskew : ∀ lk dk : List String,
      (∃ k, (k ∈ lk ∧ k ∉ dk) ∨ (k ∈ dk ∧ k ∉ lk)) →
      ∃ md ml, checkKeySkew lk dk = .error (.keySkew md ml) ∧
        md.length ≤ 10 ∧ ml.length ≤ 10 ∧
        (∀ k ∈ md, k ∈ lk ∧ k ∉ dk) ∧
        (∀ k ∈ ml, k ∈ dk ∧ k ∉ lk) ∧
        (md ≠ [] ∨ ml ≠ []) ∧
        ((lk.filter fun k2 => decide (k2 ∉ dk)).length ≤ 10 →
          ∀ k ∈ lk, k ∉ dk → k ∈ md) ∧
        ((dk.filter fun k2 => decide (k2 ∉ lk)).length ≤ 10 →
          ∀ k ∈ dk, k ∉ lk → k ∈ ml) := by
    intro lk dk hex
    have hcond : ((lk.filter fun k => decide (k ∉ dk)).length > 0 ||
        (dk.filter fun k => decide (k ∉ lk)).length > 0) = true := by
      rcases hex with ⟨k, ⟨hkl, hkd⟩ | ⟨hkd, hkl⟩⟩
      · have : k ∈ lk.filter fun k2 => decide (k2 ∉ dk) :=
          List.mem_filter.mpr ⟨hkl, by simpa using hkd⟩
        simp only [Bool.or_eq_true, decide_eq_true_eq]
        exact Or.inl (List.length_pos.mpr (List.ne_nil_of_mem this))
      · have : k ∈ dk.filter fun k2 => decide (k2 ∉ lk) :=
          List.mem_filter.mpr ⟨hkd, by simpa using hkl⟩
        simp only [Bool.or_eq_true, decide_eq_true_eq]
        exact Or.inr (List.length_pos.mpr (List.ne_nil_of_mem this))
    refine ⟨(lk.filter fun k => decide (k ∉ dk)).take 10,
      (dk.filter fun k => decide (k ∉ lk)).take 10, ?_, ?_, ?_, ?_, ?_, ?_, ?_, ?_⟩
    · unfold checkKeySkew
      rw [if_pos hcond]
    · rw [List.length_take]
      omega
    · rw [List.length_take]
      omega
    · intro k hk
      have hmem := List.mem_of_mem_take hk
      have := List.mem_filter.mp hmem
      exact ⟨this.1, by simpa using this.2⟩
    · intro k hk
      have hmem := List.mem_of_mem_take hk
      have := List.mem_filter.mp hmem
      exact ⟨this.1, by simpa using this.2⟩
    · rcases hex with ⟨k, ⟨hkl, hkd⟩ | ⟨hkd, hkl⟩⟩
      · refine Or.inl ?_
        have hmemf : k ∈ lk.filter fun k2 => decide (k2 ∉ dk) :=
          List.mem_filter.mpr ⟨hkl, by simpa using hkd⟩
        intro hnil
        have : (lk.filter fun k2 => decide (k2 ∉ dk)) ≠ [] :=
          List.ne_nil_of_mem hmemf
        rcases hfl : lk.filter fun k2 => decide (k2 ∉ dk) with _ | ⟨a, t⟩
        · exact this hfl
        · rw [hfl] at hnil
          simp [List.take] at hnil
      · refine Or.inr ?_
        have hmemf : k ∈ dk.filter fun k2 => decide (k2 ∉ lk) :=
          List.mem_filter.mpr ⟨hkd, by simpa using hkl⟩
        intro hnil
        have : (dk.filter fun k2 => decide (k2 ∉ lk)) ≠ [] :=
          List.ne_nil_of_mem hmemf
        rcases hfl : dk.filter fun k2 => decide (k2 ∉ lk) with _ | ⟨a, t⟩
        · exact this hfl
        · rw [hfl] at hnil
          simp [List.take] at hnil
    · intro hlen k hkl hkd
      rw [List.take_of_length_le hlen]
      exact List.mem_filter.mpr ⟨hkl, by simpa using hkd⟩
    · intro hlen k hkd hkl
      rw [List.take_of_length_le hlen]
      exact List.mem_filter.mpr ⟨hkd, by simpa using hkl⟩
  refine ⟨?_, hskew lightKeys darkKeys, ?_⟩
  · intro h
    unfold syncNormalize at h
    split at h
    · cases h
    · next u2 hres =>
        split at h
        · cases h
        · next v hok =>
            cases h
            have hsub := checkKeySkew_ok_subsets hok
            intro k
            exact ⟨fun hk => hsub.1 k hk, fun hk => hsub.2 k hk⟩
  · intro hres hex
    obtain ⟨md, ml, heq, -⟩ :=
      hskew (jsonModeKeys u "light") (jsonModeKeys u "dark") hex
    refine ⟨md, ml, ?_⟩
    simp only [syncNormalize, hres, heq]

/-- Counterexample for C2 as stated: the runtime tokens.ts normalization
(`resolveFinexUi`) silently returns a theme whose light map has key `Bg`
while the dark map is empty — no `KeySkewError` is raised on that path. -/
theorem claim_C2_counterexample :
    (resolveFinexUi rawSkewedExport).map
        (fun u => (jsonModeKeys u "light", jsonModeKeys u "dark")) =
      .ok (["Bg"], []) := by
  decide

/-- Witness for C2 at a concrete input: the sync pipeline rejects the skewed
export, reporting the offending key `Bg`. -/
theorem claim_C2_key_skew_failure_witness :
    ∃ md ml, syncNormalize rawSkewedExport = .error (.keySkew md ml) := by
  refine (claim_C2_key_skew_failure rawSkewedExport
      (.obj [("light", .obj [("Bg", .str "#ffffff")]), ("dark", .obj [])])
      [] []).2.2 rfl ?_
  exact ⟨"Bg", Or.inl ⟨by decide, by decide⟩⟩

theorem checkFarmTokens_ok_iff {light dark ftm} :
    checkFarmTokens light dark ftm = .ok () ↔
      ∀ p ∈ ftm, isValidTokenName p.1 = true ∧
        p.2 ∈ keysOf light ∧ p.2 ∈ keysOf dark := by
  induction ftm with
  | nil => simp [checkFarmTokens]
  | cons p rest ih =>
      obtain ⟨token, finexKey⟩ := p
      by_cases hv : isValidTokenName token = true
      · by_cases hl : finexKey ∈ keysOf light
        · by_cases hd : finexKey ∈ keysOf dark
          · simp [checkFarmTokens, hv, hl, hd, ih]
          · simp [checkFarmTokens, hv, hl, hd]
        · simp [checkFarmTokens, hv, hl]
      · simp [checkFarmTokens, hv]

theorem checkAntdTokens_ok_iff {ftm atm} :
    checkAntdTokens ftm atm = .ok () ↔ ∀ p ∈ atm, p.2 ∈ keysOf ftm := by
  induction atm with
  | nil => simp [checkAntdTokens]
  | cons p rest ih =>
      obtain ⟨antdToken, token⟩ := p
      by_cases hm : token ∈ keysOf ftm
      · simp [checkAntdTokens, hm, ih]
      · simp [checkAntdTokens, hm]

theorem checkComponentMap_ok_iff {ftm c m} :
    checkComponentMap ftm c m = .ok () ↔ ∀ q ∈ m, q.2 ∈ keysOf ftm := by
  induction m with
  | nil => simp [checkComponentMap]
  | cons q rest ih =>
      obtain ⟨ct, token⟩ := q
      by_cases hm : token ∈ keysOf ftm
      · simp [checkComponentMap, hm, ih]
      · simp [checkComponentMap, hm]

theorem checkComponents_ok_iff {ftm acm} :
    checkComponents ftm acm = .ok () ↔ ∀ c ∈ acm, ∀ q ∈ c.2, q.2 ∈ keysOf ftm := by
  induction acm with
  | nil => simp [checkComponents]
  | cons c rest ih =>
      obtain ⟨name, m⟩ := c
      cases hm : checkComponentMap ftm name m with
      | error e =>
          simp only [checkComponents, hm]
          constructor
          · intro h; cases h
          · intro h
            have hok : checkComponentMap ftm name m = .ok () :=
              checkComponentMap_ok_iff.mpr fun q hq =>
                h (name, m) (List.mem_cons_self _ _) q hq
            rw [hok] at hm
            exact Except.noConfusion hm
      | ok v =>
          cases v
          simp only [checkComponents, hm, ih]
          constructor
          · intro h c hc q hq
            rcases List.mem_cons.mp hc with rfl | hc
            · exact checkComponentMap_ok_iff.mp hm q hq
            · exact h c hc q hq
          · intro h c hc q hq
            exact h c (List.mem_cons_of_mem _ hc) q hq

theorem alookup_eq_some_of_mem_keys {m : List (String × String)} {k : String}
    (h : k ∈ keysOf m) : ∃ v, alookup m k = some v := by
  induction m with
  | nil => simp [keysOf] at h
  | cons p rest ih =>
      obtain ⟨k', v'⟩ := p
      by_cases hk : (k' == k) = true
      · exact ⟨v', by simp [alookup, hk]⟩
      · simp only [keysOf, List.map_cons, List.mem_cons] at h
        rcases h with rfl | h
        · exact absurd (beq_iff_eq.mpr rfl) hk
        · obtain ⟨v, hv⟩ := ih h
          exact ⟨v, by simp [alookup, hk, hv]⟩

theorem mem_of_alookup_eq_some {m : List (String × String)} {k v : String}
    (h : alookup m k = some v) : (k, v) ∈ m := by
  induction m with
  | nil => simp [alookup] at h
  | cons p rest ih =>
      obtain ⟨k', v'⟩ := p
      by_cases hk : (k' == k) = true
      · simp only [alookup, hk, if_true, Option.some_inj] at h
        subst h
        exact (beq_iff_eq.mp hk) ▸ List.mem_cons_self _ _
      · simp only [alookup, hk, Bool.false_eq_true, if_false] at h
        · exact List.mem_cons_of_mem _ (ih h)

/-- C5 (amended): integrity validation completes without error iff every
farm-token-map value names a key present in both the light and the dark map,
every farm token name matches the allowed pattern, and — additionally to the
claim as stated — every antd-token-map value and every nested component-token
mapping value names an existing Farm Token; under success every component
mapping value consequently resolves (through the farm token map) to a key
present in both maps.  Every error carries the offending source label and
key. -/
theorem claim_C5_integrity_validation
    (ftm atm light dark : List (String × String))
    (acm : List (String × List (String × String))) :
    (assertThemeIntegrity ftm atm light dark acm = .ok () ↔
      ((∀ p ∈ ftm, isValidTokenName p.1 = true ∧
          p.2 ∈ keysOf light ∧ p.2 ∈ keysOf dark) ∧
        (∀ p ∈ atm, p.2 ∈ keysOf ftm) ∧
        (∀ c ∈ acm, ∀ q ∈ c.2, q.2 ∈ keysOf ftm))) ∧
    (assertThemeIntegrity ftm atm light dark acm = .ok () →
      ∀ c ∈ acm, ∀ q ∈ c.2, ∃ fk, alookup ftm q.2 = some fk ∧
        fk ∈ keysOf light ∧ fk ∈ keysOf dark) := by
  have hiff : assertThemeIntegrity ftm atm light dark acm = .ok () ↔
      ((∀ p ∈ ftm, isValidTokenName p.1 = true ∧
          p.2 ∈ keysOf light ∧ p.2 ∈ keysOf dark) ∧
        (∀ p ∈ atm, p.2 ∈ keysOf ftm) ∧
        (∀ c ∈ acm, ∀ q ∈ c.2, q.2 ∈ keysOf ftm)) := by
    unfold assertThemeIntegrity
    cases hf : checkFarmTokens light dark ftm with
    | error e =>
        simp only []
        constructor
        · intro h; cases h
        · rintro ⟨h1, -, -⟩
          exact absurd (checkFarmTokens_ok_iff.mpr h1) (by simp [hf])
    | ok v =>
        cases v
        cases ha : checkAntdTokens ftm atm with
        | error e =>
            simp only []
            constructor
            · intro h; cases h
            · rintro ⟨-, h2, -⟩
              exact absurd (checkAntdTokens_ok_iff.mpr h2) (by simp [ha])
        | ok v2 =>
            cases v2
            simp only [checkComponents_ok_iff]
            constructor
            · intro h3
              exact ⟨checkFarmTokens_ok_iff.mp hf, checkAntdTokens_ok_iff.mp ha, h3⟩
            · rintro ⟨-, -, h3⟩
              exact h3
  refine ⟨hiff, ?_⟩
  intro h c hc q hq
  obtain ⟨h1, -, h3⟩ := hiff.mp h
  obtain ⟨fk, hfk⟩ := alookup_eq_some_of_mem_keys (h3 c hc q hq)
  have hmem := mem_of_alookup_eq_some hfk
  obtain ⟨-, hl, hd⟩ := h1 (q.2, fk) hmem
  exact ⟨fk, hfk, hl, hd⟩

/-- Counterexample for C5 as stated: with a valid farm-token map pointing into
both mode maps and a vacuous component map — i.e. with all conditions named by
the claim satisfied — validation still raises an error, because the
antd-token-map value `missing` names no Farm Token (a check the claim's
"if and only if" omits). -/
theorem claim_C5_counterexample :
    assertThemeIntegrity [("a", "A")] [("colorPrimary", "missing")]
        [("A", "#fff")] [("A", "#000")] [] =
      .error (.danglingAntdToken "colorPrimary" "missing") ∧
      (∀ p ∈ [("a", "A")], isValidTokenName p.1 = true ∧
        p.2 ∈ keysOf [("A", "#fff")] ∧ p.2 ∈ keysOf [("A", "#000")]) ∧
      (∀ c ∈ ([] : List (String × List (String × String))), ∀ q ∈ c.2,
        q.2 ∈ keysOf [("a", "A")]) := by
  refine ⟨by decide, by decide, by decide⟩

/-- Witness for C5 at a concrete consistent configuration: validation passes
and the component value resolves to a key present in both maps. -/
theorem claim_C5_integrity_validation_witness :
    assertThemeIntegrity [("a", "A")] [("colorPrimary", "a")] [("A", "#fff")]
        [("A", "#000")] [("Button", [("colorPrimary", "a")])] = .ok () ∧
      ∃ fk, alookup [("a", "A")] "a" = some fk ∧
        fk ∈ keysOf [("A", "#fff")] ∧ fk ∈ keysOf [("A", "#000")] := by
  have h := claim_C5_integrity_validation [("a", "A")] [("colorPrimary", "a")]
    [("A", "#fff")] [("A", "#000")] [("Button", [("colorPrimary", "a")])]
  have hok : assertThemeIntegrity [("a", "A")] [("colorPrimary", "a")]
      [("A", "#fff")] [("A", "#000")] [("Button", [("colorPrimary", "a")])] =
      .ok () := h.1.mpr ⟨by decide, by decide, by decide⟩
  refine ⟨hok, ?_⟩
  exact h.2 hok ("Button", [("colorPrimary", "a")]) (by decide)
    ("colorPrimary", "a") (by decide)

theorem resolveModeTokensGo_append_error {mode : Mode}
    {modeTokens overrides : List (String × String)} :
    ∀ (pre : List (String × String)) (acc : List (String × String))
      (token finexKey : String) (post : List (String × String)),
      (∀ p ∈ pre, (alookup modeTokens p.2).isSome) →
      alookup modeTokens finexKey = none →
      resolveModeTokensGo mode modeTokens overrides
          (pre ++ (token, finexKey) :: post) acc =
        .error (.missingModeKey mode finexKey token) := by
  intro pre
  induction pre with
  | nil =>
      intro acc token finexKey post hpre hmiss
      simp only [List.nil_append, resolveModeTokensGo, hmiss]
  | cons p rest ih =>
      intro acc token finexKey post hpre hmiss
      obtain ⟨t0, fk0⟩ := p
      have h0 : (alookup modeTokens fk0).isSome :=
        hpre (t0, fk0) (List.mem_cons_self _ _)
      obtain ⟨v0, hv0⟩ := Option.isSome_iff_exists.mp h0
      simp only [List.cons_append, resolveModeTokensGo, hv0]
      exact ih _ token finexKey post
        (fun q hq => hpre q (List.mem_cons_of_mem _ hq)) hmiss

/-- C10: if the mode map lacks the flat key assigned to a token by the
mapping table (and every earlier entry resolves), resolution — also as run by
`createTheme` — throws the error naming the missing key and the token, for
EVERY override table, in particular one that supplies a value for that very
token: an override can replace an existing base value but never substitute a
missing one. -/
theorem claim_C10_override_cannot_replace_missing
    (finexLight finexDark ovLight ovDark : List (String × String))
    (pre post : List (String × String)) (token finexKey w : String)
    (hpre : ∀ p ∈ pre, (alookup finexLight p.2).isSome)
    (hmiss : alookup finexLight finexKey = none)
    (hov : alookup ovLight token = some w) :
    resolveModeTokens .light finexLight ovLight
        (pre ++ (token, finexKey) :: post) =
      .error (.missingModeKey .light finexKey token) ∧
    createThemeTokens finexLight finexDark ovLight ovDark
        (pre ++ (token, finexKey) :: post) =
      .error (.missingModeKey .light finexKey token) := by
  have hres : resolveModeTokens .light finexLight ovLight
      (pre ++ (token, finexKey) :: post) =
      .error (.missingModeKey .light finexKey token) :=
    resolveModeTokensGo_append_error pre [] token finexKey post hpre hmiss
  refine ⟨hres, ?_⟩
  unfold createThemeTokens
  rw [hres]

/-- Witness for C10 at a concrete input: the light map lacks `K-missing`, the
override supplies a value for token `b`, yet theme creation fails naming
`K-missing` and `b`. -/
theorem claim_C10_override_cannot_replace_missing_witness :
    resolveModeTokens .light [("K", "#111")] [("b", "#222")]
        [("a", "K"), ("b", "K-missing")] =
      .error (.missingModeKey .light "K-missing" "b") ∧
    createThemeTokens [("K", "#111")] [("K", "#999")] [("b", "#222")] []
        [("a", "K"), ("b", "K-missing")] =
      .error (.missingModeKey .light "K-missing" "b") := by
  exact claim_C10_override_cannot_replace_missing [("K", "#111")] [("K", "#999")]
    [("b", "#222")] [] [("a", "K")] [] "b" "K-missing" "#222"
    (by decide) (by decide) (by decide)

theorem strMk_data (s : String) : String.mk s.data = s := rfl

theorem parseDecl_shape (ind n v : String)
    (hind : ∀ c ∈ ind.data, (c == ' ') = true)
    (hnc : ∀ c ∈ n.data, (c == ':') = false)
    (hh : ∀ c, n.data.head? = some c → (c == ' ') = false) :
    parseDecl (ind ++ n ++ ": " ++ v ++ ";") = some (n, v) := by
  unfold parseDecl
  have hdata : (ind ++ n ++ ": " ++ v ++ ";").data =
      ind.data ++ (n.data ++ (':' :: ' ' :: (v.data ++ [';']))) := by
    simp only [String.data_append, List.append_assoc]
    rfl
  rw [hdata]
  have h1 : ((ind.data ++ (n.data ++ (':' :: ' ' :: (v.data ++ [';'])))).dropWhile
      fun c => c == ' ') = n.data ++ (':' :: ' ' :: (v.data ++ [';'])) := by
    rw [List.dropWhile_append_of_pos hind]
    cases hn : n.data with
    | nil => simp [List.dropWhile_cons]
    | cons c cs =>
        have hc := hh c (by rw [hn]; rfl)
        simp [List.dropWhile_cons, hc]
  rw [h1]
  have hnpos : ∀ a ∈ n.data, (!(a == ':')) = true := by
    intro a ha
    simp [hnc a ha]
  have h2 : ((n.data ++ (':' :: ' ' :: (v.data ++ [';']))).dropWhile
      fun c => !(c == ':')) = ':' :: ' ' :: (v.data ++ [';']) := by
    rw [List.dropWhile_append_of_pos hnpos]
    simp [List.dropWhile_cons]
  have h3 : ((n.data ++ (':' :: ' ' :: (v.data ++ [';']))).takeWhile
      fun c => !(c == ':')) = n.data := by
    rw [List.takeWhile_append_of_pos hnpos]
    simp [List.takeWhile_cons]
  rw [h2, h3]
  simp [List.getLast?_concat, List.dropLast_concat, strMk_data]

theorem splitOnDot_ne_nil : ∀ cs : List Char, splitOnDot cs ≠ []
  | [] => by simp [splitOnDot]
  | c :: rest => by
      simp only [splitOnDot]
      match h : splitOnDot rest with
      | [] => simp
      | seg :: segs =>
          by_cases hc : (c == '.') = true
          · simp [hc]
          · have hc' : (c == '.') = false := by simpa using hc
            simp [hc']

theorem tokenChars_of_splitOnDot :
    ∀ cs : List Char,
      ((splitOnDot cs).all fun seg => seg.all isTokenChar) = true →
      ∀ c ∈ cs, isTokenChar c = true ∨ c = '.' := by
  intro cs
  induction cs with
  | nil => intro _ c hc; cases hc
  | cons a rest ih =>
      intro h c hc
      match hsp : splitOnDot rest, splitOnDot_ne_nil rest with
      | seg :: segs, _ =>
          by_cases ha : (a == '.') = true
          · rw [show splitOnDot (a :: rest) = [] :: seg :: segs by
              simp [splitOnDot, hsp, ha], List.all_cons, Bool.and_eq_true_iff] at h
            rcases List.mem_cons.mp hc with rfl | hcrest
            · exact Or.inr (beq_iff_eq.mp ha)
            · exact ih (by rw [hsp]; exact h.2) c hcrest
          · have ha' : (a == '.') = false := by simpa using ha
            rw [show splitOnDot (a :: rest) = (a :: seg) :: segs by
              simp [splitOnDot, hsp, ha'], List.all_cons, Bool.and_eq_true_iff] at h
            rcases List.mem_cons.mp hc with rfl | hcrest
            · rw [List.all_cons, Bool.and_eq_true_iff] at h
              exact Or.inl h.1.1
            · refine ih ?_ c hcrest
              rw [hsp, List.all_cons, Bool.and_eq_true_iff]
              rw [List.all_cons, Bool.and_eq_true_iff] at h
              exact ⟨h.1.2, h.2⟩

theorem dashedName_tokenChars {t : String} (h : isValidTokenName t = true) :
    ∀ c ∈ (dashedName t).data, isTokenChar c = true := by
  intro c hc
  have hweak : ((splitOnDot t.data).all fun seg => seg.all isTokenChar) = true := by
    unfold isValidTokenName at h
    rw [List.all_eq_true] at h ⊢
    intro seg hseg
    have h2 := h seg hseg
    exact (Bool.and_eq_true_iff.mp h2).2
  have hchars := tokenChars_of_splitOnDot t.data hweak
  unfold dashedName at hc
  obtain ⟨c0, hc0, rfl⟩ := List.mem_map.mp hc
  by_cases hdot : (c0 == '.') = true
  · simp [hdot, isTokenChar]
  · have hdot' : (c0 == '.') = false := by simpa using hdot
    simp only [hdot', Bool.false_eq_true, if_false]
    rcases hchars c0 hc0 with htk | hdd
    · exact htk
    · exact absurd (beq_iff_eq.mpr hdd) (by simp [hdot'])

theorem tokenChar_ne_colon {c : Char} (h : isTokenChar c = true) :
    (c == ':') = false := by
  cases hc : c == ':' with
  | false => rfl
  | true =>
      have : c = ':' := beq_iff_eq.mp hc
      subst this
      exact absurd h (by decide)

theorem scss_name_chars {t : String} (h : isValidTokenName t = true) :
    ∀ c ∈ ("$farm-" ++ dashedName t).data, (c == ':') = false := by
  intro c hc
  rw [String.data_append] at hc
  rcases List.mem_append.mp hc with hc | hc
  · fin_cases hc <;> decide
  · exact tokenChar_ne_colon (dashedName_tokenChars h c hc)

theorem less_name_chars {t : String} (h : isValidTokenName t = true) :
    ∀ c ∈ ("@farm-" ++ dashedName t).data, (c == ':') = false := by
  intro c hc
  rw [String.data_append] at hc
  rcases List.mem_append.mp hc with hc | hc
  · fin_cases hc <;> decide
  · exact tokenChar_ne_colon (dashedName_tokenChars h c hc)

theorem parseDecl_scss_line {t : String} (ht : isValidTokenName t = true)
    (v : String) :
    parseDecl ("$farm-" ++ dashedName t ++ ": " ++ v ++ ";") =
      some ("$farm-" ++ dashedName t, v) := by
  have h := parseDecl_shape "" ("$farm-" ++ dashedName t) v (by simp)
    (scss_name_chars ht) ?_
  · simpa using h
  · intro c hc
    rw [String.data_append] at hc
    rw [show ("$farm-").data = ['$', 'f', 'a', 'r', 'm', '-'] from rfl] at hc
    cases hc
    decide

theorem parseDecl_less_line {t : String} (ht : isValidTokenName t = true)
    (v : String) :
    parseDecl ("@farm-" ++ dashedName t ++ ": " ++ v ++ ";") =
      some ("@farm-" ++ dashedName t, v) := by
  have h := parseDecl_shape "" ("@farm-" ++ dashedName t) v (by simp)
    (less_name_chars ht) ?_
  · simpa using h
  · intro c hc
    rw [String.data_append] at hc
    rw [show ("@farm-").data = ['@', 'f', 'a', 'r', 'm', '-'] from rfl] at hc
    cases hc
    decide

theorem parseDecl_header :
    parseDecl "/* Auto-generated by @farm-design-system/theme. */" = none := by
  decide

theorem parseDecl_blank : parseDecl "" = none := by
  decide

theorem filterMap_parseDecl_scss_map {ftm : List (String × String)}
    (hval : ∀ p ∈ ftm, isValidTokenName p.1 = true) :
    (ftm.map fun p =>
        "$farm-" ++ dashedName p.1 ++ ": var(" ++ cssVarName p.1 ++ ");").filterMap
        parseDecl =
      ftm.map fun p =>
        ("$farm-" ++ dashedName p.1, "var(" ++ cssVarName p.1 ++ ")") := by
  induction ftm with
  | nil => rfl
  | cons p rest ih =>
      have hp := hval p (List.mem_cons_self _ _)
      simp only [List.map_cons, List.filterMap_cons]
      rw [show "$farm-" ++ dashedName p.1 ++ ": var(" ++ cssVarName p.1 ++ ");" =
        "$farm-" ++ dashedName p.1 ++ ": " ++ ("var(" ++ cssVarName p.1) ++ ");" by
          simp [String.ext_iff]]
      rw [show "$farm-" ++ dashedName p.1 ++ ": " ++ ("var(" ++ cssVarName p.1) ++ ");" =
        "$farm-" ++ dashedName p.1 ++ ": " ++ ("var(" ++ cssVarName p.1 ++ ")") ++ ";" by
          simp [String.ext_iff]]
      rw [parseDecl_scss_line hp]
      rw [ih fun q hq => hval q (List.mem_cons_of_mem _ hq)]

theorem filterMap_parseDecl_less_map {ftm : List (String × String)}
    (hval : ∀ p ∈ ftm, isValidTokenName p.1 = true) :
    (ftm.map fun p =>
        "@farm-" ++ dashedName p.1 ++ ": var(" ++ cssVarName p.1 ++ ");").filterMap
        parseDecl =
      ftm.map fun p =>
        ("@farm-" ++ dashedName p.1, "var(" ++ cssVarName p.1 ++ ")") := by
  induction ftm with
  | nil => rfl
  | cons p rest ih =>
      have hp := hval p (List.mem_cons_self _ _)
      simp only [List.map_cons, List.filterMap_cons]
      rw [show "@farm-" ++ dashedName p.1 ++ ": var(" ++ cssVarName p.1 ++ ");" =
        "@farm-" ++ dashedName p.1 ++ ": " ++ ("var(" ++ cssVarName p.1 ++ ")") ++ ";" by
          simp [String.ext_iff]]
      rw [parseDecl_less_line hp]
      rw [ih fun q hq => hval q (List.mem_cons_of_mem _ hq)]

/-- C8: for every mapping table with valid token names, the SCSS and LESS
emitters declare exactly one language-native variable per mapped token, in
order, whose value is precisely the `var(--farm-name)` reference to the
corresponding CSS variable — every parsed declaration value is such a
reference, so no literal color value of the resolved theme appears (the
emitters do not even take the theme as input). -/
theorem claim_C8_scss_less_aliases (ftm : List (String × String))
    (hval : ∀ p ∈ ftm, isValidTokenName p.1 = true) :
    ((scssLines ftm).filterMap parseDecl =
      ftm.map fun p =>
        ("$farm-" ++ dashedName p.1, "var(" ++ cssVarName p.1 ++ ")")) ∧
    ((lessLines ftm).filterMap parseDecl =
      ftm.map fun p =>
        ("@farm-" ++ dashedName p.1, "var(" ++ cssVarName p.1 ++ ")")) ∧
    (∀ nv ∈ (scssLines ftm).filterMap parseDecl,
      ∃ p ∈ ftm, nv.2 = "var(" ++ cssVarName p.1 ++ ")") ∧
    (∀ nv ∈ (lessLines ftm).filterMap parseDecl,
      ∃ p ∈ ftm, nv.2 = "var(" ++ cssVarName p.1 ++ ")") ∧
    buildTokensScss ftm = String.intercalate "\n" (scssLines ftm) ∧
    buildTokensLess ftm = String.intercalate "\n" (lessLines ftm) := by
  have hscss : (scssLines ftm).filterMap parseDecl =
      ftm.map fun p =>
        ("$farm-" ++ dashedName p.1, "var(" ++ cssVarName p.1 ++ ")") := by
    unfold scssLines
    rw [List.filterMap_append, List.filterMap_append]
    simp only [List.filterMap_cons, parseDecl_header, parseDecl_blank,
      List.filterMap_nil]
    rw [filterMap_parseDecl_scss_map hval]
    simp
  have hless : (lessLines ftm).filterMap parseDecl =
      ftm.map fun p =>
        ("@farm-" ++ dashedName p.1, "var(" ++ cssVarName p.1 ++ ")") := by
    unfold lessLines
    rw [List.filterMap_append, List.filterMap_append]
    simp only [List.filterMap_cons, parseDecl_header, parseDecl_blank,
      List.filterMap_nil]
    rw [filterMap_parseDecl_less_map hval]
    simp
  refine ⟨hscss, hless, ?_, ?_, rfl, rfl⟩
  · intro nv hnv
    rw [hscss] at hnv
    obtain ⟨p, hp, rfl⟩ := List.mem_map.mp hnv
    exact ⟨p, hp, rfl⟩
  · intro nv hnv
    rw [hless] at hnv
    obtain ⟨p, hp, rfl⟩ := List.mem_map.mp hnv
    exact ⟨p, hp, rfl⟩

/-- Witness for C8: the concrete one-token table emits exactly one SCSS alias
and one LESS alias, each a var() reference. -/
theorem claim_C8_scss_less_aliases_witness :
    (scssLines [("a", "A")]).filterMap parseDecl =
        [("$farm-a", "var(--farm-a)")] ∧
      (lessLines [("a", "A")]).filterMap parseDecl =
        [("@farm-a", "var(--farm-a)")] := by
  have h := claim_C8_scss_less_aliases [("a", "A")] (by decide)
  exact ⟨h.1, h.2.1⟩

theorem setKey_append_of_not_mem {m : List (String × String)} {k v : String}
    (h : k ∉ keysOf m) : setKey m k v = m ++ [(k, v)] := by
  induction m with
  | nil => rfl
  | cons p rest ih =>
      obtain ⟨k', v'⟩ := p
      simp only [keysOf, List.map_cons, List.mem_cons, not_or] at h
      have hk : (k' == k) = false := by
        simpa using fun hkk => h.1 hkk.symm
      simp only [setKey, hk, Bool.false_eq_true, if_false, List.cons_append,
        List.cons.injEq, true_and]
      exact ih h.2

theorem resolveModeTokensGo_ok_shape {mode : Mode}
    {mt ov : List (String × String)} :
    ∀ (entries acc res : List (String × String)),
      (acc.map Prod.fst ++ entries.map Prod.fst).Nodup →
      resolveModeTokensGo mode mt ov entries acc = .ok res →
      res = acc ++ entries.map (fun p => (p.1,
          (alookup ov p.1).getD ((alookup mt p.2).getD ""))) ∧
        ∀ p ∈ entries, (alookup mt p.2).isSome := by
  intro entries
  induction entries with
  | nil =>
      intro acc res _ h
      cases h
      exact ⟨by simp, by simp⟩
  | cons p rest ih =>
      intro acc res hnd h
      obtain ⟨t, fk⟩ := p
      cases hlk : alookup mt fk with
      | none =>
          simp only [resolveModeTokensGo, hlk] at h
          cases h
      | some v =>
          simp only [resolveModeTokensGo, hlk] at h
          have htacc : t ∉ acc.map Prod.fst := by
            intro hmem
            have hdisj := (List.nodup_append.mp hnd).2.2
            exact hdisj hmem (by simp)
          rw [setKey_append_of_not_mem htacc] at h
          have hnd2 : ((acc ++ [(t, (match alookup ov t with
              | some o => o
              | none => v))]).map Prod.fst ++ rest.map Prod.fst).Nodup := by
            simp only [List.map_append, List.map_cons, List.map_nil,
              List.append_assoc, List.singleton_append]
            simpa using hnd
          obtain ⟨hres, hsome⟩ := ih _ res hnd2 h
          constructor
          · rw [hres]
            simp only [List.append_assoc, List.singleton_append, List.map_cons]
            congr 2
            rw [hlk]
            cases alookup ov t <;> rfl
          · intro q hq
            rcases List.mem_cons.mp hq with rfl | hq
            · simp [hlk]
            · exact hsome q hq

theorem resolveModeCssVarsGo_shape {mt : List (String × String)} :
    ∀ (ts : List String) (acc : List (String × String)),
      (acc.map Prod.fst ++ ts.map cssVarName).Nodup →
      resolveModeCssVarsGo mt ts acc =
        acc ++ ts.map fun t => (cssVarName t, (alookup mt t).getD "") := by
  intro ts
  induction ts with
  | nil => intro acc _; simp [resolveModeCssVarsGo]
  | cons t rest ih =>
      intro acc hnd
      have htacc : cssVarName t ∉ acc.map Prod.fst := by
        intro hmem
        have hdisj := (List.nodup_append.mp hnd).2.2
        exact hdisj hmem (by simp)
      simp only [resolveModeCssVarsGo]
      rw [setKey_append_of_not_mem htacc]
      have hnd2 : ((acc ++ [(cssVarName t, (alookup mt t).getD "")]).map Prod.fst ++
          rest.map cssVarName).Nodup := by
        simp only [List.map_append, List.map_cons, List.map_nil,
          List.append_assoc, List.singleton_append]
        simpa using hnd
      rw [ih _ hnd2]
      simp

theorem alookup_map_of_nodup (g f : (String × String) → String)
    {entries : List (String × String)} (hnd : (entries.map g).Nodup)
    {p : String × String} (hp : p ∈ entries) :
    alookup (entries.map fun q => (g q, f q)) (g p) = some (f p) := by
  induction entries with
  | nil => cases hp
  | cons q rest ih =>
      simp only [List.map_cons, List.nodup_cons] at hnd
      rcases List.mem_cons.mp hp with rfl | hp
      · simp [alookup]
      · have hne : (g q == g p) = false := by
          by_contra hbe
          have : (g q == g p) = true := by
            cases hqp : g q == g p
            · exact absurd hqp hbe
            · rfl
          exact hnd.1 (beq_iff_eq.mp this ▸ List.mem_map_of_mem g hp)
        simp only [List.map_cons, alookup, hne, Bool.false_eq_true, if_false]
        exact ih hnd.2 hp

theorem cssVarName_colon_free {t : String} (h : isValidTokenName t = true) :
    ∀ c ∈ (cssVarName t).data, (c == ':') = false := by
  intro c hc
  unfold cssVarName at hc
  rw [String.data_append] at hc
  rcases List.mem_append.mp hc with hc | hc
  · fin_cases hc <;> decide
  · exact tokenChar_ne_colon (dashedName_tokenChars h c hc)

theorem cssVarName_head (t : String) :
    ∀ c, (cssVarName t).data.head? = some c → (c == ' ') = false := by
  intro c hc
  unfold cssVarName at hc
  rw [String.data_append] at hc
  rw [show ("--farm-").data = ['-', '-', 'f', 'a', 'r', 'm', '-'] from rfl] at hc
  cases hc
  decide

theorem filterMap_parseDecl_blockLines {vars : List (String × String)}
    (hnames : ∀ q ∈ vars, (∀ c ∈ q.1.data, (c == ':') = false) ∧
      (∀ c, q.1.data.head? = some c → (c == ' ') = false)) :
    (cssBlockLines vars).filterMap parseDecl = vars := by
  induction vars with
  | nil => rfl
  | cons q rest ih =>
      have hq := hnames q (List.mem_cons_self _ _)
      have hcl : cssBlockLines (q :: rest) =
          ("  " ++ q.1 ++ ": " ++ q.2 ++ ";") :: cssBlockLines rest := rfl
      rw [hcl, List.filterMap_cons,
        parseDecl_shape "  " q.1 q.2 (by decide) hq.1 hq.2]
      dsimp only
      rw [ih fun r hr => hnames r (List.mem_cons_of_mem _ hr)]

/-- C7 (amended): for every mapping table whose tokens are valid and map to
pairwise-distinct CSS variable names, and every theme/override pair for which
per-mode resolution succeeds, the CSS emitter produces the header plus exactly
two selector blocks joined by blank lines; each block contains exactly one
parseable `name: value;` declaration per mapped token, in mapping-table
iteration order; and for every mapped token the emitted value equals
`theme[mode][mappingTable[token]]`, with the per-token override applied when
given.  (Without the distinct-CSS-variable-name condition two mapped tokens
can collide on one declaration; see the counterexample.) -/
theorem claim_C7_css_emitter
    (ftm finexLight finexDark ovL ovD tokL tokD : List (String × String))
    (selL selD : String)
    (hval : ∀ p ∈ ftm, isValidTokenName p.1 = true)
    (hndk : (ftm.map Prod.fst).Nodup)
    (hndc : (ftm.map fun p => cssVarName p.1).Nodup)
    (hLok : resolveModeTokens .light finexLight ovL ftm = .ok tokL)
    (hDok : resolveModeTokens .dark finexDark ovD ftm = .ok tokD) :
    (createTokensCss selL selD (resolveModeCssVars tokL (keysOf ftm))
        (resolveModeCssVars tokD (keysOf ftm)) =
      String.intercalate "\n\n"
        ["/* Auto-generated by @farm-design-system/theme. */",
          formatCssVarBlock selL (resolveModeCssVars tokL (keysOf ftm)),
          formatCssVarBlock selD (resolveModeCssVars tokD (keysOf ftm)), ""]) ∧
    ((cssBlockLines (resolveModeCssVars tokL (keysOf ftm))).filterMap parseDecl =
      resolveModeCssVars tokL (keysOf ftm)) ∧
    ((cssBlockLines (resolveModeCssVars tokD (keysOf ftm))).filterMap parseDecl =
      resolveModeCssVars tokD (keysOf ftm)) ∧
    ((resolveModeCssVars tokL (keysOf ftm)).map Prod.fst =
      ftm.map fun p => cssVarName p.1) ∧
    ((resolveModeCssVars tokD (keysOf ftm)).map Prod.fst =
      ftm.map fun p => cssVarName p.1) ∧
    (∀ p ∈ ftm, ∃ vL vD, alookup finexLight p.2 = some vL ∧
      alookup finexDark p.2 = some vD ∧
      alookup (resolveModeCssVars tokL (keysOf ftm)) (cssVarName p.1) =
        some ((alookup ovL p.1).getD vL) ∧
      alookup (resolveModeCssVars tokD (keysOf ftm)) (cssVarName p.1) =
        some ((alookup ovD p.1).getD vD)) := by
  have hndcss : (([] : List (String × String)).map Prod.fst ++
      (keysOf ftm).map cssVarName).Nodup := by
    simpa [keysOf, List.map_map, Function.comp] using hndc
  have hvarsL : resolveModeCssVars tokL (keysOf ftm) =
      (keysOf ftm).map fun t => (cssVarName t, (alookup tokL t).getD "") :=
    resolveModeCssVarsGo_shape (keysOf ftm) [] hndcss
  have hvarsD : resolveModeCssVars tokD (keysOf ftm) =
      (keysOf ftm).map fun t => (cssVarName t, (alookup tokD t).getD "") :=
    resolveModeCssVarsGo_shape (keysOf ftm) [] hndcss
  have hshapeL := resolveModeTokensGo_ok_shape ftm [] tokL (by simpa using hndk) hLok
  have hshapeD := resolveModeTokensGo_ok_shape ftm [] tokD (by simpa using hndk) hDok
  have htokL : tokL = ftm.map fun p =>
      (p.1, (alookup ovL p.1).getD ((alookup finexLight p.2).getD "")) := by
    simpa using hshapeL.1
  have htokD : tokD = ftm.map fun p =>
      (p.1, (alookup ovD p.1).getD ((alookup finexDark p.2).getD "")) := by
    simpa using hshapeD.1
  have hnames : ∀ mtok : List (String × String),
      ∀ q ∈ (keysOf ftm).map fun t => (cssVarName t, (alookup mtok t).getD ""),
      (∀ c ∈ q.1.data, (c == ':') = false) ∧
        (∀ c, q.1.data.head? = some c → (c == ' ') = false) := by
    intro mtok q hq
    obtain ⟨t, ht, rfl⟩ := List.mem_map.mp hq
    obtain ⟨p, hp, rfl⟩ := List.mem_map.mp ht
    exact ⟨cssVarName_colon_free (hval p hp), cssVarName_head _⟩
  refine ⟨rfl, ?_, ?_, ?_, ?_, ?_⟩
  · rw [hvarsL]
    exact filterMap_parseDecl_blockLines (hnames tokL)
  · rw [hvarsD]
    exact filterMap_parseDecl_blockLines (hnames tokD)
  · rw [hvarsL]
    simp [keysOf, List.map_map, Function.comp]
  · rw [hvarsD]
    simp [keysOf, List.map_map, Function.comp]
  · intro p hp
    obtain ⟨vL, hvL⟩ := Option.isSome_iff_exists.mp (hshapeL.2 p hp)
    obtain ⟨vD, hvD⟩ := Option.isSome_iff_exists.mp (hshapeD.2 p hp)
    refine ⟨vL, vD, hvL, hvD, ?_, ?_⟩
    · have hlookTok : alookup tokL p.1 =
          some ((alookup ovL p.1).getD ((alookup finexLight p.2).getD "")) := by
        rw [htokL]
        exact alookup_map_of_nodup Prod.fst
          (fun q => (alookup ovL q.1).getD ((alookup finexLight q.2).getD "")) hndk hp
      have hlookVars : alookup (resolveModeCssVars tokL (keysOf ftm))
          (cssVarName p.1) = some ((alookup tokL p.1).getD "") := by
        rw [hvarsL, keysOf, List.map_map]
        exact alookup_map_of_nodup (fun q => cssVarName q.1)
          (fun q => (alookup tokL q.1).getD "") hndc hp
      rw [hlookVars, hlookTok, hvL]
      simp
    · have hlookTok : alookup tokD p.1 =
          some ((alookup ovD p.1).getD ((alookup finexDark p.2).getD "")) := by
        rw [htokD]
        exact alookup_map_of_nodup Prod.fst
          (fun q => (alookup ovD q.1).getD ((alookup finexDark q.2).getD "")) hndk hp
      have hlookVars : alookup (resolveModeCssVars tokD (keysOf ftm))
          (cssVarName p.1) = some ((alookup tokD p.1).getD "") := by
        rw [hvarsD, keysOf, List.map_map]
        exact alookup_map_of_nodup (fun q => cssVarName q.1)
          (fun q => (alookup tokD q.1).getD "") hndc hp
      rw [hlookVars, hlookTok, hvD]
      simp

/-- Counterexample for C7 as stated: the two distinct, individually valid
mapped tokens `a.b` and `a-b` collide on the CSS variable name `--farm-a-b`,
so the light block contains a single declaration for two mapped tokens —
"exactly one declaration per mapped token" fails without the
distinct-variable-name side condition. -/
theorem claim_C7_counterexample :
    resolveModeTokens .light [("K", "#111")] [] [("a.b", "K"), ("a-b", "K")] =
        .ok [("a.b", "#111"), ("a-b", "#111")] ∧
      resolveModeCssVars [("a.b", "#111"), ("a-b", "#111")] ["a.b", "a-b"] =
        [("--farm-a-b", "#111")] ∧
      (cssBlockLines (resolveModeCssVars [("a.b", "#111"), ("a-b", "#111")]
        ["a.b", "a-b"])).length = 1 := by
  refine ⟨by decide, by decide, by decide⟩

/-- Witness for C7 at a concrete one-token table with an override for the
light mode: the light declaration carries the override value, the dark one
the theme value. -/
theorem claim_C7_css_emitter_witness :
    ((cssBlockLines (resolveModeCssVars [("a", "#AAA")] (keysOf [("a", "A")]))).filterMap
        parseDecl = resolveModeCssVars [("a", "#AAA")] (keysOf [("a", "A")])) ∧
      alookup (resolveModeCssVars [("a", "#AAA")] (keysOf [("a", "A")]))
        (cssVarName "a") = some "#AAA" := by
  have h := claim_C7_css_emitter [("a", "A")] [("A", "#111")] [("A", "#222")]
    [("a", "#AAA")] [] [("a", "#AAA")] [("a", "#222")] ":root" ".dark"
    (by decide) (by decide) (by decide) (by decide) (by decide)
  refine ⟨h.2.1, ?_⟩
  obtain ⟨vL, vD, hvL, hvD, hL, hD⟩ := h.2.2.2.2.2 ("a", "A") (by decide)
  have hvL' : vL = "#111" := by
    rw [show alookup [("A", "#111")] "A" = some "#111" from rfl] at hvL
    exact (Option.some_inj.mp hvL).symm
  rw [hL]
  rfl

end FarmTheme
